import Mathlib

/-!
Verification of the TEA analytics core (correlation and PCA services).

The tabular model is a shallow embedding of the pandas structures used by
`app/analytics/correlation_service.py` and `app/analytics/pca_service.py`:
a DataFrame is a row count together with named columns of optional rational
cells (`none` models NaN).  Library numeric kernels whose values are
irrational (the square-root based Pearson ratio, the scipy p-value tests,
the standard-deviation scale of StandardScaler) are abstracted as function
parameters; every structural decision made by the repository code (masking,
guards, thresholds, ordering, windowing) is embedded explicitly.
-/

namespace TEA

/-- One pandas column: a list of cells, `none` modelling a missing value. -/
abbrev Col : Type := List (Option ℚ)

/-- Tabular data as produced by `load_weather_data`: a row count together
with the named numeric columns (pandas `select_dtypes` already drops the
timestamp column, so only numeric-typed columns are modelled). -/
structure Df where
  nRows : ℕ
  cols : List (String × Col)
deriving DecidableEq

/-- Keep a row only when both of its cells are present. -/
def jointRow : Option ℚ × Option ℚ → Option (ℚ × ℚ)
  | (some a, some b) => some (a, b)
  | _ => none

/-- Pairwise deletion of missing values, as in the mask
`df[[cols[i], cols[j]]].notna().all(axis=1)`: keep the rows where both
columns have a present value. -/
def jointRows (c1 c2 : Col) : List (ℚ × ℚ) :=
  (c1.zip c2).filterMap jointRow

/-- Scaled variance numerator `n·Σx² − (Σx)²` of a list of values.  The
pandas nancorr divisor for a pair is the square root of the product of the
two columns' values of this quantity; the divisor is zero exactly when this
quantity is zero for one of the columns. -/
def Dvar (xs : List ℚ) : ℚ :=
  (xs.length : ℚ) * (xs.map fun x => x ^ 2).sum - xs.sum ^ 2

/-- One entry of `analysis_df.corr(method='pearson')` (pandas nancorr):
mask to the jointly present rows; when either masked column has zero
variance the divisor is zero and the entry is NaN (`none`); otherwise the
Pearson ratio, whose irrational square-root kernel is abstracted as `f`. -/
def pearsonEntry (f : List (ℚ × ℚ) → ℚ) (c1 c2 : Col) : Option ℚ :=
  let rows := jointRows c1 c2
  if Dvar (rows.map Prod.fst) = 0 ∨ Dvar (rows.map Prod.snd) = 0 then none
  else some (f rows)

/-- Average-tie ranks as used by the pandas Spearman path: the rank of `x`
within `xs` is the count of strictly smaller values plus half of one more
than the count of values equal to `x`. -/
def rankAvg (xs : List ℚ) : List ℚ :=
  xs.map fun x =>
    (xs.countP fun y => decide (y < x) : ℚ) +
      ((xs.countP fun y => decide (y = x) : ℚ) + 1) / 2

/-- One entry of `analysis_df.corr(method='spearman')`: mask to the jointly
present rows, rank both masked columns with average ties, then apply the
Pearson formula to the ranks; a zero-variance rank vector gives NaN.  The
irrational ratio kernel on the ranked pairs is abstracted as `g`. -/
def spearmanEntry (g : List (ℚ × ℚ) → ℚ) (c1 c2 : Col) : Option ℚ :=
  let rows := jointRows c1 c2
  let rx := rankAvg (rows.map Prod.fst)
  let ry := rankAvg (rows.map Prod.snd)
  if Dvar rx = 0 ∨ Dvar ry = 0 then none
  else some (g (rx.zip ry))

/-- One entry of the matrix built by `_calculate_pvalues`: 0.0 on the
diagonal (`i == j`); otherwise mask to the jointly present rows, return the
sentinel 1.0 when fewer than 3 joint rows remain, and otherwise the scipy
two-sided test p-value, abstracted as the kernel `p`. -/
def pvalueEntry (p : List ℚ → List ℚ → ℚ) (c1 c2 : Col) (i j : ℕ) : ℚ :=
  if i = j then 0
  else
    let rows := jointRows c1 c2
    if rows.length < 3 then 1
    else p (rows.map Prod.fst) (rows.map Prod.snd)

/-- Method selector of `calculate_correlations`. -/
inductive Method where
  | pearson
  | spearman
  | both
deriving DecidableEq

/-- Result dictionary of `calculate_correlations`: the surviving column
names and, per requested method, the coefficient matrix and its p-value
matrix (a matrix is a list of rows). -/
structure CorrResult where
  cols : List String
  pearson : Option (List (List (Option ℚ)))
  pearsonPvalues : Option (List (List ℚ))
  spearman : Option (List (List (Option ℚ)))
  spearmanPvalues : Option (List (List ℚ))
deriving DecidableEq

/-- Numeric candidate columns: `select_dtypes` output with `station_id`
removed. -/
def numericCols (df : Df) : List (String × Col) :=
  df.cols.filter fun c => c.1 ≠ "station_id"

/-- Count of non-missing values of a column (`df[col].notna().sum()`). -/
def nonNullCount (c : Col) : ℕ :=
  c.countP fun o => o.isSome

/-- Columns that survive the minimum-observation filter of
`calculate_correlations`. -/
def validCols (df : Df) (minObs : ℕ) : List (String × Col) :=
  (numericCols df).filter fun c => decide (minObs ≤ nonNullCount c.2)

/-- Coefficient matrix over the surviving columns, entry by entry. -/
def coeffMatrix (ent : Col → Col → Option ℚ) (cs : List Col) :
    List (List (Option ℚ)) :=
  cs.map fun c1 => cs.map fun c2 => ent c1 c2

/-- P-value matrix over the surviving columns; the entry also receives the
index pair because `_calculate_pvalues` special-cases `i == j`. -/
def pvalueMatrix (p : List ℚ → List ℚ → ℚ) (cs : List Col) :
    List (List ℚ) :=
  (List.range cs.length).map fun i =>
    (List.range cs.length).map fun j =>
      pvalueEntry p (cs.getD i []) (cs.getD j []) i j

/-- Embedding of `CorrelationAnalysisService.calculate_correlations`.
`f`/`g` are the abstracted Pearson/Spearman ratio kernels and `p`/`q` the
abstracted scipy p-value kernels.  Columns with fewer than `minObs`
non-missing values are dropped (with a logged warning, not modelled); if
fewer than 2 columns remain a ValueError of kind InsufficientDataError is
raised, otherwise the requested matrices are computed over exactly the
surviving columns. -/
def calculate_correlations (f g : List (ℚ × ℚ) → ℚ)
    (p q : List ℚ → List ℚ → ℚ) (df : Df) (method : Method) (minObs : ℕ) :
    Except String CorrResult :=
  let valid := validCols df minObs
  if valid.length < 2 then
    .error "Insufficient data for correlation analysis"
  else
    let cs := valid.map Prod.snd
    .ok
      { cols := valid.map Prod.fst
        pearson :=
          if method = .pearson ∨ method = .both then
            some (coeffMatrix (pearsonEntry f) cs)
          else none
        pearsonPvalues :=
          if method = .pearson ∨ method = .both then
            some (pvalueMatrix p cs)
          else none
        spearman :=
          if method = .spearman ∨ method = .both then
            some (coeffMatrix (spearmanEntry g) cs)
          else none
        spearmanPvalues :=
          if method = .spearman ∨ method = .both then
            some (pvalueMatrix q cs)
          else none }

/-- Entry lookup in a coefficient matrix (out-of-range gives NaN). -/
def coeffAt (m : List (List (Option ℚ))) (i j : ℕ) : Option ℚ :=
  (m.getD i []).getD j none

/-- Entry lookup in a p-value matrix (out-of-range gives 0). -/
def pvalAt (m : List (List ℚ)) (i j : ℕ) : ℚ :=
  (m.getD i []).getD j 0

/-! ### Generic list helpers -/

theorem getD_map_range {α : Type} (n : ℕ) (f : ℕ → α) (i : ℕ) (d : α)
    (h : i < n) : ((List.range n).map f).getD i d = f i := by
  rw [List.getD_eq_getElem _ _ (by simpa using h)]
  simp

theorem getD_out_of_range {α : Type} (l : List α) (i : ℕ) (d : α)
    (h : l.length ≤ i) : l.getD i d = d := by
  simp [List.getD_eq_getElem?_getD, List.getElem?_eq_none h]

/-! ### Shared concrete fixtures used by witnesses -/

/-- Trivial instantiation of an abstracted coefficient kernel. -/
def kernF : List (ℚ × ℚ) → ℚ := fun _ => 1

/-- Trivial instantiation of an abstracted p-value kernel. -/
def kernP : List ℚ → List ℚ → ℚ := fun _ _ => 1 / 2

instance : DecidableEq (Except String CorrResult) := fun a b =>
  match a, b with
  | .error x, .error y =>
    if h : x = y then isTrue (by rw [h]) else isFalse (by simp [h])
  | .error _, .ok _ => isFalse (by simp)
  | .ok _, .error _ => isFalse (by simp)
  | .ok x, .ok y =>
    if h : x = y then isTrue (by rw [h]) else isFalse (by simp [h])

/-- Small fully populated two-column frame. -/
def dfA : Df := ⟨2, [("a", [some 1, some 2]), ("b", [some 1, some 3])]⟩

/-- Result of `calculate_correlations` on `dfA` with the trivial kernels. -/
def rA : CorrResult :=
  { cols := ["a", "b"]
    pearson := some [[some 1, some 1], [some 1, some 1]]
    pearsonPvalues := some [[0, 1], [1, 0]]
    spearman := some [[some 1, some 1], [some 1, some 1]]
    spearmanPvalues := some [[0, 1], [1, 0]] }

/-- Concrete evaluation of `calculate_correlations` on the fixture `dfA`. -/
theorem calculate_correlations_dfA :
    calculate_correlations kernF kernF kernP kernP dfA .both 2 =
      .ok rA := by
  norm_num [calculate_correlations, validCols, numericCols, nonNullCount,
    dfA, rA, coeffMatrix, pvalueMatrix, pvalueEntry, pearsonEntry,
    spearmanEntry, jointRows, jointRow, Dvar, rankAvg, kernF, kernP,
    List.filterMap_cons, List.countP_cons, List.countP_nil,
    List.range_succ, List.filter_cons, List.filter_nil,
    show ("a" : String) ≠ "station_id" from by decide,
    show ("b" : String) ≠ "station_id" from by decide]

/-- Unfolding equation of `calculate_correlations`. -/
theorem calculate_correlations_def (f g : List (ℚ × ℚ) → ℚ)
    (p q : List ℚ → List ℚ → ℚ) (df : Df) (method : Method) (minObs : ℕ) :
    calculate_correlations f g p q df method minObs =
      if (validCols df minObs).length < 2 then
        .error "Insufficient data for correlation analysis"
      else
        .ok
          { cols := (validCols df minObs).map Prod.fst
            pearson :=
              if method = .pearson ∨ method = .both then
                some (coeffMatrix (pearsonEntry f)
                  ((validCols df minObs).map Prod.snd))
              else none
            pearsonPvalues :=
              if method = .pearson ∨ method = .both then
                some (pvalueMatrix p ((validCols df minObs).map Prod.snd))
              else none
            spearman :=
              if method = .spearman ∨ method = .both then
                some (coeffMatrix (spearmanEntry g)
                  ((validCols df minObs).map Prod.snd))
              else none
            spearmanPvalues :=
              if method = .spearman ∨ method = .both then
                some (pvalueMatrix q ((validCols df minObs).map Prod.snd))
              else none } := rfl

/-! ### C5: the insufficient-data guard of calculate_correlations -/

/-- C5: `calculate_correlations` fails with the InsufficientDataError
(`ValueError("Insufficient data for correlation analysis")`) exactly when
fewer than 2 numeric columns with at least `minObs` non-missing values
remain, the error is surfaced to the caller (the `Except` value is the
whole result), and on success the matrices are indexed by exactly the
surviving columns, in order. -/
theorem claim_C5 (f g : List (ℚ × ℚ) → ℚ) (p q : List ℚ → List ℚ → ℚ)
    (df : Df) (method : Method) (minObs : ℕ) :
    (calculate_correlations f g p q df method minObs =
        .error "Insufficient data for correlation analysis" ↔
      ((numericCols df).countP fun c => decide (minObs ≤ nonNullCount c.2)) < 2) ∧
    (∀ r, calculate_correlations f g p q df method minObs = .ok r →
      r.cols = (validCols df minObs).map Prod.fst ∧
      (∀ m, r.pearson = some m → m.length = r.cols.length ∧
        ∀ row ∈ m, row.length = r.cols.length) ∧
      (∀ m, r.spearman = some m → m.length = r.cols.length ∧
        ∀ row ∈ m, row.length = r.cols.length)) := by
  have hd := calculate_correlations_def f g p q df method minObs
  have hcount : (validCols df minObs).length =
      (numericCols df).countP fun c => decide (minObs ≤ nonNullCount c.2) := by
    simp [validCols, List.countP_eq_length_filter]
  by_cases h2 : (validCols df minObs).length < 2
  · rw [if_pos h2] at hd
    refine ⟨⟨fun _ => hcount ▸ h2, fun _ => hd⟩, fun r hok => ?_⟩
    rw [hd] at hok
    exact Except.noConfusion hok
  · rw [if_neg h2] at hd
    refine ⟨⟨fun hcontra => ?_, fun hlt => ?_⟩, fun r hok => ?_⟩
    · rw [hd] at hcontra
      exact Except.noConfusion hcontra
    · exact absurd (by rw [hcount]; exact hlt) h2
    · rw [hd, Except.ok.injEq] at hok
      subst hok
      refine ⟨rfl, ?_, ?_⟩
      · intro m hm
        by_cases hmp : method = Method.pearson ∨ method = Method.both
        · rw [if_pos hmp, Option.some.injEq] at hm
          subst hm
          refine ⟨by simp [coeffMatrix], ?_⟩
          intro row hrow
          simp only [coeffMatrix, List.mem_map] at hrow
          obtain ⟨c1, _, rfl⟩ := hrow
          simp
        · rw [if_neg hmp] at hm
          exact Option.noConfusion hm
      · intro m hm
        by_cases hms : method = Method.spearman ∨ method = Method.both
        · rw [if_pos hms, Option.some.injEq] at hm
          subst hm
          refine ⟨by simp [coeffMatrix], ?_⟩
          intro row hrow
          simp only [coeffMatrix, List.mem_map] at hrow
          obtain ⟨c1, _, rfl⟩ := hrow
          simp
        · rw [if_neg hms] at hm
          exact Option.noConfusion hm

/-- Witness for C5 at a concrete frame: both columns of `dfA` survive and
index the returned matrices. -/
theorem claim_C5_witness :
    rA.cols = (validCols dfA 2).map Prod.fst :=
  ((claim_C5 kernF kernF kernP kernP dfA .both 2).2 rA
    calculate_correlations_dfA).1

/-! ### C6: p-value diagonal and the sparse-pair sentinel -/

theorem pvalueMatrix_entry (p : List ℚ → List ℚ → ℚ) (cs : List Col)
    (i j : ℕ) (hi : i < cs.length) (hj : j < cs.length) :
    pvalAt (pvalueMatrix p cs) i j =
      pvalueEntry p (cs.getD i []) (cs.getD j []) i j := by
  unfold pvalAt pvalueMatrix
  rw [getD_map_range cs.length
      (fun i => (List.range cs.length).map fun j =>
        pvalueEntry p (cs.getD i []) (cs.getD j []) i j) i [] hi,
    getD_map_range cs.length
      (fun j => pvalueEntry p (cs.getD i []) (cs.getD j []) i j) j 0 hj]

theorem pvalueMatrix_diag (p : List ℚ → List ℚ → ℚ) (cs : List Col)
    (i : ℕ) : pvalAt (pvalueMatrix p cs) i i = 0 := by
  by_cases h : i < cs.length
  · rw [pvalueMatrix_entry p cs i i h h]
    simp [pvalueEntry]
  · have hout : (pvalueMatrix p cs).getD i [] = [] := by
      apply getD_out_of_range
      simp only [pvalueMatrix, List.length_map, List.length_range]
      omega
    unfold pvalAt
    rw [hout]
    simp

theorem pvalueMatrix_sparse (p : List ℚ → List ℚ → ℚ) (cs : List Col)
    (i j : ℕ) (hij : i ≠ j) (hi : i < cs.length) (hj : j < cs.length)
    (h3 : (jointRows (cs.getD i []) (cs.getD j [])).length < 3) :
    pvalAt (pvalueMatrix p cs) i j = 1 := by
  rw [pvalueMatrix_entry p cs i j hi hj]
  unfold pvalueEntry
  rw [if_neg hij]
  exact if_pos h3

/-- C6: in every p-value matrix produced by `calculate_correlations`, each
diagonal entry is exactly 0, and every off-diagonal pair with fewer than 3
jointly-non-missing rows has p-value exactly 1 (a sentinel; the entry is
total, so no failure can occur for such a pair). -/
theorem claim_C6 (f g : List (ℚ × ℚ) → ℚ) (p q : List ℚ → List ℚ → ℚ)
    (df : Df) (method : Method) (minObs : ℕ) (r : CorrResult)
    (hok : calculate_correlations f g p q df method minObs = .ok r)
    (pm : List (List ℚ))
    (hpm : r.pearsonPvalues = some pm ∨ r.spearmanPvalues = some pm) :
    (∀ i, pvalAt pm i i = 0) ∧
    (∀ i j, i ≠ j → i < r.cols.length → j < r.cols.length →
      (jointRows (((validCols df minObs).map Prod.snd).getD i [])
          (((validCols df minObs).map Prod.snd).getD j [])).length < 3 →
      pvalAt pm i j = 1) := by
  have hd := calculate_correlations_def f g p q df method minObs
  by_cases h2 : (validCols df minObs).length < 2
  · rw [hd, if_pos h2] at hok
    exact Except.noConfusion hok
  · rw [hd, if_neg h2, Except.ok.injEq] at hok
    subst hok
    have key : ∀ pmat, pm = pvalueMatrix pmat ((validCols df minObs).map Prod.snd) →
        (∀ i, pvalAt pm i i = 0) ∧
        (∀ i j, i ≠ j →
          i < ((validCols df minObs).map Prod.fst).length →
          j < ((validCols df minObs).map Prod.fst).length →
          (jointRows (((validCols df minObs).map Prod.snd).getD i [])
              (((validCols df minObs).map Prod.snd).getD j [])).length < 3 →
          pvalAt pm i j = 1) := by
      intro pmat hpmat
      subst hpmat
      exact ⟨fun i => pvalueMatrix_diag _ _ i,
        fun i j hij hi hj h3 =>
          pvalueMatrix_sparse _ _ i j hij (by simpa using hi)
            (by simpa using hj) h3⟩
    rcases hpm with hpm | hpm
    · have hpm' : (if method = Method.pearson ∨ method = Method.both then
          some (pvalueMatrix p ((validCols df minObs).map Prod.snd))
          else none) = some pm := hpm
      by_cases hmp : method = Method.pearson ∨ method = Method.both
      · rw [if_pos hmp, Option.some.injEq] at hpm'
        exact key p hpm'.symm
      · rw [if_neg hmp] at hpm'
        exact Option.noConfusion hpm'
    · have hpm' : (if method = Method.spearman ∨ method = Method.both then
          some (pvalueMatrix q ((validCols df minObs).map Prod.snd))
          else none) = some pm := hpm
      by_cases hms : method = Method.spearman ∨ method = Method.both
      · rw [if_pos hms, Option.some.injEq] at hpm'
        exact key q hpm'.symm
      · rw [if_neg hms] at hpm'
        exact Option.noConfusion hpm'

/-- Witness for C6: on `dfA` (only 2 rows, so every pair has fewer than 3
joint rows) the Pearson p-value matrix has diagonal 0 and sentinel 1. -/
theorem claim_C6_witness :
    pvalAt [[(0 : ℚ), 1], [1, 0]] 0 0 = 0 ∧
    pvalAt [[(0 : ℚ), 1], [1, 0]] 0 1 = 1 := by
  have h := claim_C6 kernF kernF kernP kernP dfA .both 2 rA
    calculate_correlations_dfA [[0, 1], [1, 0]] (Or.inl rfl)
  exact ⟨h.1 0, h.2 0 1 (by decide) (by decide) (by decide) (by decide)⟩

/-! ### C2: automatic component-count selection in perform_pca -/

/-- Running-accumulator form of `np.cumsum`. -/
def cumsumGo (acc : ℚ) : List ℚ → List ℚ
  | [] => []
  | x :: t => (acc + x) :: cumsumGo (acc + x) t

/-- Cumulative sums (`np.cumsum`) of the explained-variance ratios. -/
def cumsum (l : List ℚ) : List ℚ :=
  cumsumGo 0 l

/-- First index holding `true`, and 0 when there is none: the behaviour of
`np.argmax` on a boolean vector. -/
def argmaxBool (l : List Bool) : ℕ :=
  match l.findIdx? id with
  | some i => i
  | none => 0

/-- The `n_components is None` branch of `perform_pca`: after fitting all
components, `n_components = np.argmax(cumsum_var >= variance_threshold) + 1`. -/
def auto_n_components (varRatios : List ℚ) (varianceThreshold : ℚ) : ℕ :=
  argmaxBool ((cumsum varRatios).map fun c => decide (varianceThreshold ≤ c)) + 1

theorem cumsumGo_length (acc : ℚ) (l : List ℚ) :
    (cumsumGo acc l).length = l.length := by
  induction l generalizing acc with
  | nil => rfl
  | cons x t ih => simp [cumsumGo, ih]

theorem cumsumGo_getD (l : List ℚ) :
    ∀ (acc : ℚ) (i : ℕ), i < l.length →
      (cumsumGo acc l).getD i 0 = acc + (l.take (i + 1)).sum := by
  induction l with
  | nil => intro acc i h; simp at h
  | cons x t ih =>
    intro acc i h
    cases i with
    | zero => simp [cumsumGo]
    | succ n =>
      have hn : n < t.length := by simpa using h
      simp only [cumsumGo, List.getD_cons_succ, ih (acc + x) n hn,
        List.take_succ_cons, List.sum_cons]
      ring

theorem cumsum_length (l : List ℚ) : (cumsum l).length = l.length :=
  cumsumGo_length 0 l

theorem cumsum_getElem (l : List ℚ) (i : ℕ) (h : i < (cumsum l).length) :
    (cumsum l)[i] = (l.take (i + 1)).sum := by
  have hlen : i < l.length := by simpa [cumsum_length] using h
  rw [← List.getD_eq_getElem _ 0 h]
  simpa [cumsum] using cumsumGo_getD l 0 i hlen

/-- C2: when `n_components` is absent, `perform_pca` selects the smallest
component count whose cumulative explained-variance ratio meets or exceeds
`variance_threshold` (assuming some count does): the selected `k` is
positive, at most the number of components, the first `k` ratios sum to at
least the threshold, and every strictly smaller positive count falls short. -/
theorem claim_C2 (varRatios : List ℚ) (varianceThreshold : ℚ)
    (hex : ∃ m, 0 < m ∧ m ≤ varRatios.length ∧
      varianceThreshold ≤ (varRatios.take m).sum) :
    0 < auto_n_components varRatios varianceThreshold ∧
    auto_n_components varRatios varianceThreshold ≤ varRatios.length ∧
    varianceThreshold ≤
      (varRatios.take (auto_n_components varRatios varianceThreshold)).sum ∧
    ∀ m, 0 < m → m < auto_n_components varRatios varianceThreshold →
      (varRatios.take m).sum < varianceThreshold := by
  obtain ⟨m, hm0, hmle, hmsum⟩ := hex
  set L := (cumsum varRatios).map fun c => decide (varianceThreshold ≤ c)
    with hL
  have hLlen : L.length = varRatios.length := by
    simp [hL, cumsum_length]
  have hmem : ∃ x, x ∈ L ∧ id x = true := by
    refine ⟨true, ?_, rfl⟩
    have hidx : m - 1 < (cumsum varRatios).length := by
      rw [cumsum_length]; omega
    have hval : (cumsum varRatios)[m - 1] = (varRatios.take m).sum := by
      rw [cumsum_getElem varRatios (m - 1) hidx,
        show m - 1 + 1 = m from by omega]
    have hmem' : (cumsum varRatios)[m - 1] ∈ cumsum varRatios :=
      List.getElem_mem hidx
    have hdec : decide (varianceThreshold ≤ (cumsum varRatios)[m - 1]) = true := by
      rw [hval]; exact decide_eq_true hmsum
    exact hdec ▸ List.mem_map_of_mem _ hmem'
  have hi := List.findIdx?_eq_some_of_exists hmem
  obtain ⟨hilen, hitrue, hibefore⟩ :=
    List.findIdx?_eq_some_iff_getElem.mp hi
  have hauto : auto_n_components varRatios varianceThreshold =
      L.findIdx id + 1 := by
    unfold auto_n_components argmaxBool
    rw [← hL, hi]
  set i := L.findIdx id with hidef
  have hic : i < (cumsum varRatios).length := by
    rw [cumsum_length]; omega
  have hiq : varianceThreshold ≤ (varRatios.take (i + 1)).sum := by
    have hLi : L[i] =
        decide (varianceThreshold ≤ (cumsum varRatios)[i]) := by
      simp [hL]
    rw [hLi] at hitrue
    have := of_decide_eq_true hitrue
    rwa [cumsum_getElem] at this
  refine ⟨by omega, by omega, by rwa [hauto], ?_⟩
  intro m' hm'0 hm'lt
  rw [hauto] at hm'lt
  have hj : m' - 1 < i := by omega
  have hjL : m' - 1 < L.length := by omega
  have hjc : m' - 1 < (cumsum varRatios).length := by
    rw [cumsum_length]; omega
  have hfalse := hibefore (m' - 1) hj
  have hLval : L[m' - 1] =
      decide (varianceThreshold ≤ (cumsum varRatios)[m' - 1]) := by
    simp [hL]
  rw [hLval] at hfalse
  simp only [id_eq, decide_eq_true_eq] at hfalse
  have hcs : (cumsum varRatios)[m' - 1] = (varRatios.take m').sum := by
    rw [cumsum_getElem, show m' - 1 + 1 = m' from by omega]
  rw [hcs] at hfalse
  exact lt_of_not_le hfalse

/-- Witness for C2: with ratios 1/2, 3/10, 1/5 and threshold 7/10, a
qualifying count exists; the selected count is positive, within range, and
its prefix reaches the threshold. -/
theorem claim_C2_witness :
    0 < auto_n_components [1/2, 3/10, 1/5] (7/10) ∧
    auto_n_components [1/2, 3/10, 1/5] (7/10) ≤ 3 ∧
    (7/10 : ℚ) ≤
      (([1/2, 3/10, 1/5] : List ℚ).take
        (auto_n_components [1/2, 3/10, 1/5] (7/10))).sum := by
  have h := claim_C2 [1/2, 3/10, 1/5] (7/10)
    ⟨2, by norm_num [List.take_succ_cons]⟩
  exact ⟨h.1, h.2.1, h.2.2.1⟩

/-! ### C7: anomaly detection from reconstruction errors -/

/-- Empirical quantile with linear interpolation: the semantics of
`Series.quantile(q)` (numpy linear percentile) on a nonempty series.  Sort
ascending, take `h = (n-1)·q`, and interpolate between the order statistics
at `floor h` and `floor h + 1`. -/
def quantileLinear (xs : List ℚ) (q : ℚ) : ℚ :=
  let s := xs.mergeSort fun a b => decide (a ≤ b)
  let pos : ℚ := ((s.length : ℚ) - 1) * q
  let lo : ℕ := pos.floor.toNat
  let base := s.getD lo 0
  base + (pos - (lo : ℚ)) * (s.getD (lo + 1) base - base)

/-- Embedding of `PCAAnalysisService.detect_anomalies`: the threshold is
the `threshold_percentile` quantile of this run's errors; each row carries
its error, the flag `error > threshold` (strict), and the score
`error / threshold` clipped from above at 3. -/
def detect_anomalies (errs : List ℚ) (thresholdPercentile : ℚ) :
    List (ℚ × Bool × ℚ) :=
  let threshold := quantileLinear errs thresholdPercentile
  errs.map fun e => (e, decide (threshold < e), min (e / threshold) 3)

theorem getD_map {α β : Type} (f : α → β) (l : List α) (i : ℕ) (d : β)
    (d' : α) (h : i < l.length) :
    (l.map f).getD i d = f (l.getD i d') := by
  rw [List.getD_eq_getElem _ _ (by simpa using h),
    List.getD_eq_getElem _ _ h]
  simp

/-- C7: `detect_anomalies` computes the threshold as the empirical
`threshold_percentile` quantile of this run's error distribution, flags
exactly the rows whose error is strictly greater than the threshold, and
scores each row by `error / threshold` capped at 3. -/
theorem claim_C7 (errs : List ℚ) (q : ℚ) :
    (detect_anomalies errs q).length = errs.length ∧
    ∀ i, i < errs.length →
      ((detect_anomalies errs q).getD i (0, false, 0)).1 = errs.getD i 0 ∧
      (((detect_anomalies errs q).getD i (0, false, 0)).2.1 = true ↔
        quantileLinear errs q < errs.getD i 0) ∧
      ((detect_anomalies errs q).getD i (0, false, 0)).2.2 =
        min (errs.getD i 0 / quantileLinear errs q) 3 ∧
      ((detect_anomalies errs q).getD i (0, false, 0)).2.2 ≤ 3 := by
  constructor
  · simp [detect_anomalies]
  · intro i hi
    have hent : (detect_anomalies errs q).getD i (0, false, 0) =
        (errs.getD i 0, decide (quantileLinear errs q < errs.getD i 0),
          min (errs.getD i 0 / quantileLinear errs q) 3) := by
      unfold detect_anomalies
      exact getD_map _ errs i _ 0 hi
    rw [hent]
    exact ⟨rfl, by simp, rfl, min_le_right _ _⟩

/-- Witness for C7 on errors 1, 2, 10 at the median: rows are preserved and
the extreme row's score is capped at 3. -/
theorem claim_C7_witness :
    (detect_anomalies [1, 2, 10] (1/2)).length = 3 ∧
    ((detect_anomalies [1, 2, 10] (1/2)).getD 2 (0, false, 0)).2.2 ≤ 3 := by
  have h := claim_C7 [1, 2, 10] (1/2)
  exact ⟨h.1, (h.2 2 (by norm_num)).2.2.2⟩

/-! ### C4: prepare_data_for_pca has no insufficient-data guard -/

/-- Mean of a list of values (0 for an empty list, by rational junk
division). -/
def meanQ (l : List ℚ) : ℚ :=
  l.sum / (l.length : ℚ)

/-- SimpleImputer with strategy mean: replace each missing cell by the mean
of the column's non-missing values. -/
def imputeMean (c : Col) : List ℚ :=
  let m := meanQ (c.filterMap id)
  c.map fun o => o.getD m

/-- StandardScaler on one column: subtract the fitted column mean and
divide by the fitted scale; the irrational scale (square root of the
variance, 1 for a zero-variance column) is abstracted as `scale`. -/
def standardizeCol (scale : List ℚ → ℚ) (v : List ℚ) : List ℚ :=
  let mu := meanQ v
  let s := scale v
  v.map fun x => (x - mu) / s

/-- Embedding of `PCAAnalysisService.prepare_data_for_pca` on its default
(non-aggregated) path: filter the requested parameters to those present in
the fetched frame, select those columns, impute missing values by column
mean, standardize, and return (scaled frame, original frame, feature
names).  The source contains no minimum-usable-parameter check and no
raise statement on this path. -/
def prepare_data_for_pca (scale : List ℚ → ℚ) (df : Df)
    (parameters : List String) :
    List (String × List ℚ) × Df × List String :=
  let featureCols := parameters.filter fun pname =>
    decide (pname ∈ df.cols.map Prod.fst)
  let X := featureCols.map fun pname =>
    (pname, ((df.cols.find? fun c => decide (c.1 = pname)).map Prod.snd).getD [])
  let Xscaled := X.map fun c => (c.1, standardizeCol scale (imputeMean c.2))
  (Xscaled, df, featureCols)

theorem sum_map_sub_const (l : List ℚ) (c : ℚ) :
    (l.map fun x => x - c).sum = l.sum - l.length * c := by
  induction l with
  | nil => simp
  | cons x t ih =>
    simp only [List.map_cons, List.sum_cons, ih, List.length_cons]
    push_cast
    ring

theorem sum_map_div (l : List ℚ) (f : ℚ → ℚ) (c : ℚ) :
    (l.map fun x => f x / c).sum = (l.map f).sum / c := by
  induction l with
  | nil => simp
  | cons x t ih =>
    simp only [List.map_cons, List.sum_cons, ih]
    ring

theorem sum_map_sub_mean (v : List ℚ) :
    (v.map fun x => x - meanQ v).sum = 0 := by
  rw [sum_map_sub_const]
  unfold meanQ
  by_cases hn : (v.length : ℚ) = 0
  · have hv : v = [] := by
      cases v with
      | nil => rfl
      | cons x t => norm_cast at hn
    subst hv
    simp
  · field_simp

/-- A standardized column always sums to zero, whatever the abstracted
scale does. -/
theorem standardizeCol_sum (scale : List ℚ → ℚ) (v : List ℚ) :
    (standardizeCol scale v).sum = 0 := by
  unfold standardizeCol
  rw [show (v.map fun x => (x - meanQ v) / scale v) =
      (v.map fun x => (fun y => y - meanQ v) x / scale v) from rfl,
    sum_map_div v (fun y => y - meanQ v) (scale v), sum_map_sub_mean]
  simp

/-- Fixture: trivial scale kernel. -/
def scale1 : List ℚ → ℚ := fun _ => 1

/-- Fixture: a frame offering exactly one of the requested parameters. -/
def dfB : Df := ⟨2, [("temperature", [some 1, some 3])]⟩

/-- Counterexample to C4: with only one usable parameter (fewer than 2),
`prepare_data_for_pca` does not fail with an InsufficientDataError — it
proceeds to impute and standardize, returning a one-column standardized
matrix. -/
theorem claim_C4_counterexample :
    prepare_data_for_pca scale1 dfB ["temperature", "humidity"] =
      ([("temperature", [-1, 1])], dfB, ["temperature"]) := by
  norm_num [prepare_data_for_pca, standardizeCol, imputeMean, meanQ,
    scale1, dfB, List.filter_cons, List.filter_nil, List.find?,
    List.filterMap_cons,
    show ("humidity" : String) ≠ "temperature" from by decide]

/-- C4 amended: `prepare_data_for_pca` performs no minimum-usable-parameter
check: for every input it filters the requested parameters to those present
in the frame and proceeds to impute and standardize (each returned column
is standardized, hence sums to zero), however few parameters remain. -/
theorem claim_C4_amended (scale : List ℚ → ℚ) (df : Df)
    (parameters : List String) :
    (prepare_data_for_pca scale df parameters).2.2 =
      (parameters.filter fun pname => decide (pname ∈ df.cols.map Prod.fst)) ∧
    (prepare_data_for_pca scale df parameters).1.map Prod.fst =
      (prepare_data_for_pca scale df parameters).2.2 ∧
    ∀ c ∈ (prepare_data_for_pca scale df parameters).1, c.2.sum = 0 := by
  refine ⟨rfl, ?_, ?_⟩
  · simp only [prepare_data_for_pca, List.map_map]
    exact List.map_id'' (fun pname => rfl) _
  · intro c hc
    simp only [prepare_data_for_pca, List.map_map, List.mem_map] at hc
    obtain ⟨pname, _, rfl⟩ := hc
    exact standardizeCol_sum scale _

/-- Witness for C4 amended at the concrete one-parameter frame: the single
returned column sums to zero and names line up. -/
theorem claim_C4_witness :
    (prepare_data_for_pca scale1 dfB ["temperature", "humidity"]).1.map
        Prod.fst =
      (prepare_data_for_pca scale1 dfB ["temperature", "humidity"]).2.2 ∧
    (("temperature", [(-1 : ℚ), 1]) :
        String × List ℚ).2.sum = 0 := by
  have h := claim_C4_amended scale1 dfB ["temperature", "humidity"]
  refine ⟨h.2.1, h.2.2 ("temperature", [(-1 : ℚ), 1]) ?_⟩
  norm_num [prepare_data_for_pca, standardizeCol, imputeMean, meanQ,
    scale1, dfB, List.filter_cons, List.filter_nil, List.find?,
    List.filterMap_cons,
    show ("humidity" : String) ≠ "temperature" from by decide]

/-! ### C8: full-rank PCA reconstruction is lossless -/

/-- Column means of a feature matrix (sklearn fits this as `mean_`). -/
def colMean {n d : ℕ} (X : Fin n → Fin d → ℚ) (j : Fin d) : ℚ :=
  (∑ i, X i j) / (n : ℚ)

/-- StandardScaler on a whole matrix: z-score each column with the fitted
column mean; the irrational per-column scale is abstracted as `scale`. -/
def standardizeMatrix {n d : ℕ} (scale : Fin d → ℚ)
    (X : Fin n → Fin d → ℚ) : Fin n → Fin d → ℚ :=
  fun i j => (X i j - colMean X j) / scale j

/-- sklearn `PCA.transform`: scores are `(X − mean_) · componentsᵗ`, where
row `c` of `V` holds the c-th component vector. -/
def pcaScores {n d k : ℕ} (X : Fin n → Fin d → ℚ) (mean : Fin d → ℚ)
    (V : Fin k → Fin d → ℚ) : Fin n → Fin k → ℚ :=
  fun i c => ∑ j, (X i j - mean j) * V c j

/-- Embedding of `calculate_reconstruction_error`: reconstruct
`scores · loadingsᵗ` (the loadings table stores `Vᵗ`, so the product is
`scores · V`) and sum the squared residuals per row against the
standardized matrix. -/
def calculate_reconstruction_error {n d k : ℕ} (X : Fin n → Fin d → ℚ)
    (scores : Fin n → Fin k → ℚ) (V : Fin k → Fin d → ℚ) : Fin n → ℚ :=
  fun i => ∑ j, (X i j - ∑ c, scores i c * V c j) ^ 2

/-- Standardized matrices have zero column means, whatever the scale. -/
theorem colMean_standardize {n d : ℕ} (scale : Fin d → ℚ)
    (X : Fin n → Fin d → ℚ) (j : Fin d) :
    colMean (standardizeMatrix scale X) j = 0 := by
  unfold colMean standardizeMatrix
  rw [show (∑ i, (X i j - colMean X j) / scale j) =
      (∑ i, (X i j - colMean X j)) / scale j from (Finset.sum_div _ _ _).symm]
  have h2 : ∑ i, (X i j - colMean X j) = 0 := by
    rw [Finset.sum_sub_distrib, Finset.sum_const, Finset.card_univ,
      Fintype.card_fin]
    unfold colMean
    by_cases hn : (n : ℚ) = 0
    · have : n = 0 := by exact_mod_cast hn
      subst this
      simp
    · rw [nsmul_eq_mul]
      field_simp
  rw [h2]
  simp

/-- C8: when the retained component count equals the number of original
features and the component rows are orthonormal (`V·Vᵗ = 1`, sklearn's
guarantee), the reconstruction error of every observation of the
standardized matrix is exactly 0: full-rank PCA round-trip is lossless. -/
theorem claim_C8 {n d : ℕ} (Y : Fin n → Fin d → ℚ) (scale : Fin d → ℚ)
    (V : Fin d → Fin d → ℚ)
    (hV : Matrix.of V * (Matrix.of V).transpose = 1) :
    ∀ i, calculate_reconstruction_error (standardizeMatrix scale Y)
      (pcaScores (standardizeMatrix scale Y)
        (colMean (standardizeMatrix scale Y)) V) V i = 0 := by
  intro i
  have hVtV : (Matrix.of V).transpose * Matrix.of V = 1 :=
    Matrix.mul_eq_one_comm.mp hV
  have horth : ∀ j j' : Fin d,
      (∑ c, V c j * V c j') = if j = j' then 1 else 0 := by
    intro j j'
    have h := congrFun (congrFun hVtV j) j'
    simpa [Matrix.mul_apply, Matrix.transpose_apply, Matrix.one_apply]
      using h
  have hmean : ∀ j, colMean (standardizeMatrix scale Y) j = 0 :=
    colMean_standardize scale Y
  have hrec : ∀ j : Fin d,
      (∑ c, pcaScores (standardizeMatrix scale Y)
        (colMean (standardizeMatrix scale Y)) V i c * V c j) =
      standardizeMatrix scale Y i j := by
    intro j
    unfold pcaScores
    calc
      ∑ c, (∑ j', (standardizeMatrix scale Y i j' -
            colMean (standardizeMatrix scale Y) j') * V c j') * V c j
        = ∑ c, ∑ j', (standardizeMatrix scale Y i j' -
            colMean (standardizeMatrix scale Y) j') * (V c j' * V c j) := by
          refine Finset.sum_congr rfl fun c _ => ?_
          rw [Finset.sum_mul]
          exact Finset.sum_congr rfl fun j' _ => by ring
      _ = ∑ j', (standardizeMatrix scale Y i j' -
            colMean (standardizeMatrix scale Y) j') * (∑ c, V c j' * V c j) := by
          rw [Finset.sum_comm]
          exact Finset.sum_congr rfl fun j' _ => (Finset.mul_sum _ _ _).symm
      _ = ∑ j', (standardizeMatrix scale Y i j' -
            colMean (standardizeMatrix scale Y) j') *
              (if j' = j then 1 else 0) := by
          refine Finset.sum_congr rfl fun j' _ => ?_
          rw [horth]
      _ = standardizeMatrix scale Y i j -
            colMean (standardizeMatrix scale Y) j := by
          simp [mul_ite]
      _ = standardizeMatrix scale Y i j := by
          rw [hmean]
          ring
  unfold calculate_reconstruction_error
  refine Finset.sum_eq_zero fun j _ => ?_
  rw [hrec]
  ring

/-- Fixtures for the C8 witness: a 1-by-1 standardized problem with the
identity component matrix. -/
def Y1 : Fin 1 → Fin 1 → ℚ := fun _ _ => 3

/-- Fixture scale vector. -/
def scaleHalf : Fin 1 → ℚ := fun _ => 2

/-- Fixture orthonormal component matrix. -/
def V1 : Fin 1 → Fin 1 → ℚ := fun _ _ => 1

/-- Witness for C8 at the 1-by-1 fixture. -/
theorem claim_C8_witness :
    calculate_reconstruction_error (standardizeMatrix scaleHalf Y1)
      (pcaScores (standardizeMatrix scaleHalf Y1)
        (colMean (standardizeMatrix scaleHalf Y1)) V1) V1 0 = 0 :=
  claim_C8 Y1 scaleHalf V1 (by
    ext a b
    fin_cases a
    fin_cases b
    norm_num [Matrix.mul_apply, V1, Matrix.one_apply]) 0

/-! ### C9: matrix symmetry, diagonals, and the zero-variance NaN case -/

/-- A list of values that are all equal (a constant column). -/
def AllSame (xs : List ℚ) : Prop :=
  ∀ a ∈ xs, ∀ b ∈ xs, a = b

theorem list_sum_fin (xs : List ℚ) :
    xs.sum = ∑ i : Fin xs.length, xs.get i := by
  induction xs with
  | nil => simp
  | cons x t ih =>
    rw [List.sum_cons, ih]
    exact (Fin.sum_univ_succ
      fun i : Fin (t.length + 1) => (x :: t).get i).symm

theorem list_map_sum_fin (xs : List ℚ) (f : ℚ → ℚ) :
    (xs.map f).sum = ∑ i : Fin xs.length, f (xs.get i) := by
  induction xs with
  | nil => simp
  | cons x t ih =>
    rw [List.map_cons, List.sum_cons, ih]
    exact (Fin.sum_univ_succ
      fun i : Fin (t.length + 1) => f ((x :: t).get i)).symm

theorem Dvar_double (xs : List ℚ) :
    2 * Dvar xs =
      ∑ i : Fin xs.length, ∑ j : Fin xs.length,
        (xs.get i - xs.get j) ^ 2 := by
  unfold Dvar
  rw [list_sum_fin xs, list_map_sum_fin xs fun x => x ^ 2]
  have hrow : ∀ i : Fin xs.length,
      (∑ j : Fin xs.length, (xs.get i - xs.get j) ^ 2) =
        (xs.length : ℚ) * xs.get i ^ 2 -
          2 * xs.get i * (∑ j : Fin xs.length, xs.get j) +
          ∑ j : Fin xs.length, xs.get j ^ 2 := by
    intro i
    have hexp : ∀ j : Fin xs.length,
        (xs.get i - xs.get j) ^ 2 =
          xs.get i ^ 2 - 2 * xs.get i * xs.get j + xs.get j ^ 2 :=
      fun j => by ring
    rw [Finset.sum_congr rfl fun j _ => hexp j,
      Finset.sum_add_distrib, Finset.sum_sub_distrib,
      Finset.sum_const, Finset.card_univ, Fintype.card_fin,
      nsmul_eq_mul, ← Finset.mul_sum]
  rw [Finset.sum_congr rfl fun i _ => hrow i,
    Finset.sum_add_distrib, Finset.sum_sub_distrib,
    Finset.sum_const, Finset.card_univ, Fintype.card_fin, nsmul_eq_mul,
    ← Finset.mul_sum, ← Finset.sum_mul, ← Finset.mul_sum]
  ring

/-- The nancorr divisor vanishes exactly on constant columns. -/
theorem Dvar_eq_zero_iff (xs : List ℚ) : Dvar xs = 0 ↔ AllSame xs := by
  constructor
  · intro h0 a ha b hb
    obtain ⟨i, hi⟩ := List.mem_iff_get.mp ha
    obtain ⟨j, hj⟩ := List.mem_iff_get.mp hb
    have hsum : (∑ i : Fin xs.length, ∑ j : Fin xs.length,
        (xs.get i - xs.get j) ^ 2) = 0 := by
      rw [← Dvar_double, h0]
      ring
    have h1 := (Finset.sum_eq_zero_iff_of_nonneg fun i _ =>
      Finset.sum_nonneg fun j _ => sq_nonneg _).mp hsum
    have h2 := (Finset.sum_eq_zero_iff_of_nonneg fun j _ =>
      sq_nonneg _).mp (h1 i (Finset.mem_univ i))
    have h3 := h2 j (Finset.mem_univ j)
    have h4 : xs.get i - xs.get j = 0 := by
      exact sq_eq_zero_iff.mp (by simpa [sq] using h3)
    rw [← hi, ← hj]
    linarith
  · intro hAS
    have hsum : (∑ i : Fin xs.length, ∑ j : Fin xs.length,
        (xs.get i - xs.get j) ^ 2) = 0 :=
      Finset.sum_eq_zero fun i _ => Finset.sum_eq_zero fun j _ => by
        rw [hAS (xs.get i) (xs.get_mem i.1 i.2) (xs.get j)
          (xs.get_mem j.1 j.2)]
        ring
    have h2 := Dvar_double xs
    rw [hsum] at h2
    linarith

/-- The average-tie rank of one value within a column. -/
def rankVal (xs : List ℚ) (x : ℚ) : ℚ :=
  (xs.countP fun y => decide (y < x) : ℚ) +
    ((xs.countP fun y => decide (y = x) : ℚ) + 1) / 2

theorem rankAvg_eq_map_rankVal (xs : List ℚ) :
    rankAvg xs = xs.map (rankVal xs) := rfl

theorem countP_disjoint_add (l : List ℚ) (x : ℚ) :
    (l.countP fun y => decide (y < x)) + (l.countP fun y => decide (y = x)) =
      l.countP fun y => decide (y ≤ x) := by
  induction l with
  | nil => simp
  | cons a t ih =>
    simp only [List.countP_cons]
    rcases lt_trichotomy a x with h | h | h
    · simp [h, le_of_lt h, ne_of_lt h]
      omega
    · simp [h]
      omega
    · simp [not_lt_of_gt h, (ne_of_gt h), not_le_of_gt h]
      omega

/-- Strictly ordered members of a column have strictly ordered average
ranks. -/
theorem rankVal_lt_of_lt (xs : List ℚ) (x y : ℚ) (hy : y ∈ xs)
    (hxy : x < y) : rankVal xs x < rankVal xs y := by
  have hcl : (xs.countP fun z => decide (z ≤ x)) ≤
      xs.countP fun z => decide (z < y) := by
    apply List.countP_mono_left
    intro z _ hz
    simp only [decide_eq_true_eq] at hz ⊢
    exact lt_of_le_of_lt hz hxy
  rw [← countP_disjoint_add] at hcl
  have hce : 1 ≤ xs.countP fun z => decide (z = y) := by
    have : 0 < xs.countP fun z => decide (z = y) :=
      List.countP_pos_iff.mpr ⟨y, hy, by simp⟩
    omega
  unfold rankVal
  have hclq : ((xs.countP fun z => decide (z < x)) : ℚ) +
      ((xs.countP fun z => decide (z = x)) : ℚ) ≤
      ((xs.countP fun z => decide (z < y)) : ℚ) := by
    exact_mod_cast hcl
  have hceq : (1 : ℚ) ≤ ((xs.countP fun z => decide (z = y)) : ℚ) := by
    exact_mod_cast hce
  have hnn : (0 : ℚ) ≤ ((xs.countP fun z => decide (z = x)) : ℚ) := by
    positivity
  linarith

theorem rankAvg_allSame (xs : List ℚ) (h : AllSame xs) :
    AllSame (rankAvg xs) := by
  intro a ha b hb
  rw [rankAvg_eq_map_rankVal] at ha hb
  obtain ⟨x, hx, rfl⟩ := List.mem_map.mp ha
  obtain ⟨y, hy, rfl⟩ := List.mem_map.mp hb
  rw [h x hx y hy]

theorem rankAvg_not_allSame (xs : List ℚ) (h : ¬ AllSame xs) :
    ¬ AllSame (rankAvg xs) := by
  intro hR
  apply h
  intro a ha b hb
  by_contra hab
  have hne : rankVal xs a ≠ rankVal xs b := by
    rcases lt_or_gt_of_ne hab with hlt | hgt
    · exact ne_of_lt (rankVal_lt_of_lt xs a b hb hlt)
    · exact (ne_of_lt (rankVal_lt_of_lt xs b a ha hgt)).symm
  exact hne (hR (rankVal xs a)
    (rankAvg_eq_map_rankVal xs ▸ List.mem_map_of_mem _ ha)
    (rankVal xs b)
    (rankAvg_eq_map_rankVal xs ▸ List.mem_map_of_mem _ hb))

theorem jointRow_swap (pr : Option ℚ × Option ℚ) :
    jointRow (pr.2, pr.1) = (jointRow pr).map Prod.swap := by
  rcases pr with ⟨_ | a, _ | b⟩ <;> rfl

theorem jointRows_swap (c1 c2 : Col) :
    jointRows c2 c1 = (jointRows c1 c2).map Prod.swap := by
  unfold jointRows
  rw [← List.zip_swap c1 c2, List.filterMap_map, List.map_filterMap]
  congr 1
  funext pr
  exact jointRow_swap pr

theorem jointRows_self (c : Col) :
    jointRows c c = (c.filterMap id).map fun a => (a, a) := by
  induction c with
  | nil => rfl
  | cons o t ih => cases o <;> simp [jointRows, jointRow, ih] <;>
      simpa [jointRows] using ih

theorem map_fst_jointRows_self (c : Col) :
    (jointRows c c).map Prod.fst = c.filterMap id := by
  rw [jointRows_self, List.map_map]
  exact List.map_id'' (fun a => rfl) _

theorem map_snd_jointRows_self (c : Col) :
    (jointRows c c).map Prod.snd = c.filterMap id := by
  rw [jointRows_self, List.map_map]
  exact List.map_id'' (fun a => rfl) _

theorem pairs_self_diag (l : List ℚ) :
    ∀ pr ∈ l.map fun a => ((a : ℚ), a), pr.1 = pr.2 := by
  intro pr hpr
  obtain ⟨a, _, rfl⟩ := List.mem_map.mp hpr
  rfl

theorem zip_self_eq_map (l : List ℚ) :
    l.zip l = l.map fun a => (a, a) := by
  induction l with
  | nil => rfl
  | cons x t ih => simp [ih]

/-- Diagonal entry of the Pearson matrix over a constant column: the
divisor is zero, so pandas produces NaN, not 1. -/
theorem pearsonEntry_diag_allSame (f : List (ℚ × ℚ) → ℚ) (c : Col)
    (h : AllSame (c.filterMap id)) : pearsonEntry f c c = none := by
  simp only [pearsonEntry]
  exact if_pos (Or.inl (by
    rw [map_fst_jointRows_self]
    exact (Dvar_eq_zero_iff _).mpr h))

/-- Diagonal entry of the Pearson matrix over a non-constant column: the
correlation of a column with itself is 1 (a property of the abstracted
ratio kernel on non-degenerate diagonal row lists). -/
theorem pearsonEntry_diag_ne (f : List (ℚ × ℚ) → ℚ)
    (hfd : ∀ l, (∀ pr ∈ l, pr.1 = pr.2) → Dvar (l.map Prod.fst) ≠ 0 →
      f l = 1)
    (c : Col) (h : ¬ AllSame (c.filterMap id)) :
    pearsonEntry f c c = some 1 := by
  have hD : Dvar ((jointRows c c).map Prod.fst) ≠ 0 := by
    rw [map_fst_jointRows_self]
    exact fun h0 => h ((Dvar_eq_zero_iff _).mp h0)
  have hD2 : Dvar ((jointRows c c).map Prod.snd) ≠ 0 := by
    rw [map_snd_jointRows_self]
    exact fun h0 => h ((Dvar_eq_zero_iff _).mp h0)
  have hdiag : ∀ pr ∈ jointRows c c, pr.1 = pr.2 := by
    rw [jointRows_self]
    exact pairs_self_diag _
  simp only [pearsonEntry]
  rw [if_neg (not_or.mpr ⟨hD, hD2⟩), hfd _ hdiag hD]

/-- Diagonal entry of the Spearman matrix over a constant column: the
ranks are constant, the divisor zero, the entry NaN. -/
theorem spearmanEntry_diag_allSame (g : List (ℚ × ℚ) → ℚ) (c : Col)
    (h : AllSame (c.filterMap id)) : spearmanEntry g c c = none := by
  simp only [spearmanEntry]
  exact if_pos (Or.inl (by
    rw [map_fst_jointRows_self]
    exact (Dvar_eq_zero_iff _).mpr (rankAvg_allSame _ h)))

/-- Diagonal entry of the Spearman matrix over a non-constant column. -/
theorem spearmanEntry_diag_ne (g : List (ℚ × ℚ) → ℚ)
    (hgd : ∀ l, (∀ pr ∈ l, pr.1 = pr.2) → Dvar (l.map Prod.fst) ≠ 0 →
      g l = 1)
    (c : Col) (h : ¬ AllSame (c.filterMap id)) :
    spearmanEntry g c c = some 1 := by
  have hR : ¬ AllSame (rankAvg (c.filterMap id)) :=
    rankAvg_not_allSame _ h
  have hDR : Dvar (rankAvg (c.filterMap id)) ≠ 0 :=
    fun h0 => hR ((Dvar_eq_zero_iff _).mp h0)
  simp only [spearmanEntry]
  rw [map_fst_jointRows_self, map_snd_jointRows_self,
    if_neg (not_or.mpr ⟨hDR, hDR⟩)]
  have hdiag : ∀ pr ∈ (rankAvg (c.filterMap id)).zip
      (rankAvg (c.filterMap id)), pr.1 = pr.2 := by
    rw [zip_self_eq_map]
    exact pairs_self_diag _
  have hDfst : Dvar (((rankAvg (c.filterMap id)).zip
      (rankAvg (c.filterMap id))).map Prod.fst) ≠ 0 := by
    rw [List.map_fst_zip _ _ le_rfl]
    exact hDR
  rw [hgd _ hdiag hDfst]

/-- The Pearson entry is symmetric in its two columns. -/
theorem pearsonEntry_symm (f : List (ℚ × ℚ) → ℚ)
    (hf : ∀ l, f (l.map Prod.swap) = f l) (c1 c2 : Col) :
    pearsonEntry f c2 c1 = pearsonEntry f c1 c2 := by
  simp only [pearsonEntry]
  rw [jointRows_swap c1 c2, List.map_map, List.map_map,
    show Prod.fst ∘ (Prod.swap : ℚ × ℚ → ℚ × ℚ) = Prod.snd from rfl,
    show Prod.snd ∘ (Prod.swap : ℚ × ℚ → ℚ × ℚ) = Prod.fst from rfl,
    hf]
  exact if_congr or_comm rfl rfl

/-- The Spearman entry is symmetric in its two columns. -/
theorem spearmanEntry_symm (g : List (ℚ × ℚ) → ℚ)
    (hg : ∀ l, g (l.map Prod.swap) = g l) (c1 c2 : Col) :
    spearmanEntry g c2 c1 = spearmanEntry g c1 c2 := by
  simp only [spearmanEntry]
  rw [jointRows_swap c1 c2, List.map_map, List.map_map,
    show Prod.fst ∘ (Prod.swap : ℚ × ℚ → ℚ × ℚ) = Prod.snd from rfl,
    show Prod.snd ∘ (Prod.swap : ℚ × ℚ → ℚ × ℚ) = Prod.fst from rfl,
    ← List.zip_swap (rankAvg ((jointRows c1 c2).map Prod.fst))
      (rankAvg ((jointRows c1 c2).map Prod.snd)),
    hg]
  exact if_congr or_comm rfl rfl

/-- The p-value entry is symmetric under swapping both the columns and the
index pair. -/
theorem pvalueEntry_symm (p : List ℚ → List ℚ → ℚ)
    (hp : ∀ x y, p x y = p y x) (c1 c2 : Col) (i j : ℕ) :
    pvalueEntry p c2 c1 j i = pvalueEntry p c1 c2 i j := by
  simp only [pvalueEntry]
  by_cases hij : i = j
  · subst hij
    simp
  · rw [if_neg (fun hji => hij hji.symm), if_neg hij,
      jointRows_swap c1 c2, List.length_map, List.map_map, List.map_map,
      show Prod.fst ∘ (Prod.swap : ℚ × ℚ → ℚ × ℚ) = Prod.snd from rfl,
      show Prod.snd ∘ (Prod.swap : ℚ × ℚ → ℚ × ℚ) = Prod.fst from rfl,
      hp]

theorem coeffMatrix_entry (ent : Col → Col → Option ℚ) (cs : List Col)
    (i j : ℕ) (hi : i < cs.length) (hj : j < cs.length) :
    coeffAt (coeffMatrix ent cs) i j = ent (cs.getD i []) (cs.getD j []) := by
  unfold coeffAt coeffMatrix
  rw [getD_map (fun c1 => cs.map fun c2 => ent c1 c2) cs i [] [] hi,
    getD_map (fun c2 => ent (cs.getD i []) c2) cs j none [] hj]

theorem coeffMatrix_out (ent : Col → Col → Option ℚ) (cs : List Col)
    (i j : ℕ) (h : ¬ (i < cs.length ∧ j < cs.length)) :
    coeffAt (coeffMatrix ent cs) i j = none := by
  unfold coeffAt coeffMatrix
  by_cases hi : i < cs.length
  · have hj : cs.length ≤ j := by
      rcases Nat.lt_or_ge j cs.length with hj | hj
      · exact absurd ⟨hi, hj⟩ h
      · exact hj
    rw [getD_map (fun c1 => cs.map fun c2 => ent c1 c2) cs i [] [] hi]
    exact getD_out_of_range _ j none (by simpa using hj)
  · rw [getD_out_of_range _ i [] (by simpa using Nat.le_of_not_lt hi)]
    simp

theorem coeffMatrix_symm (ent : Col → Col → Option ℚ)
    (hsym : ∀ c1 c2, ent c2 c1 = ent c1 c2) (cs : List Col) (i j : ℕ) :
    coeffAt (coeffMatrix ent cs) i j = coeffAt (coeffMatrix ent cs) j i := by
  by_cases hin : i < cs.length ∧ j < cs.length
  · rw [coeffMatrix_entry ent cs i j hin.1 hin.2,
      coeffMatrix_entry ent cs j i hin.2 hin.1, hsym]
  · rw [coeffMatrix_out ent cs i j hin,
      coeffMatrix_out ent cs j i (by tauto)]

theorem pvalueMatrix_out (p : List ℚ → List ℚ → ℚ) (cs : List Col)
    (i j : ℕ) (h : ¬ (i < cs.length ∧ j < cs.length)) :
    pvalAt (pvalueMatrix p cs) i j = 0 := by
  unfold pvalAt pvalueMatrix
  by_cases hi : i < cs.length
  · have hj : cs.length ≤ j := by
      rcases Nat.lt_or_ge j cs.length with hj | hj
      · exact absurd ⟨hi, hj⟩ h
      · exact hj
    rw [getD_map_range cs.length
      (fun i => (List.range cs.length).map fun j =>
        pvalueEntry p (cs.getD i []) (cs.getD j []) i j) i [] hi]
    exact getD_out_of_range _ j 0 (by simpa using hj)
  · rw [getD_out_of_range _ i [] (by simpa using Nat.le_of_not_lt hi)]
    simp

theorem pvalueMatrix_symm (p : List ℚ → List ℚ → ℚ)
    (hp : ∀ x y, p x y = p y x) (cs : List Col) (i j : ℕ) :
    pvalAt (pvalueMatrix p cs) i j = pvalAt (pvalueMatrix p cs) j i := by
  by_cases hin : i < cs.length ∧ j < cs.length
  · rw [pvalueMatrix_entry p cs i j hin.1 hin.2,
      pvalueMatrix_entry p cs j i hin.2 hin.1]
    exact (pvalueEntry_symm p hp (cs.getD i []) (cs.getD j []) i j).symm
  · rw [pvalueMatrix_out p cs i j hin,
      pvalueMatrix_out p cs j i (by tauto)]

/-- C9 amended: every matrix returned by `calculate_correlations` is
symmetric and every p-value diagonal entry is 0; a coefficient diagonal
entry is 1 exactly for columns whose pairwise-complete values are not all
equal — for a constant (zero-variance) column pandas' divisor is zero and
the diagonal entry, like the rest of that column's row, is NaN rather than
1.  The kernel hypotheses state the symmetry and self-correlation
properties of the abstracted scipy/pandas numeric routines. -/
theorem claim_C9_amended (f g : List (ℚ × ℚ) → ℚ)
    (p q : List ℚ → List ℚ → ℚ) (df : Df) (method : Method) (minObs : ℕ)
    (r : CorrResult)
    (hok : calculate_correlations f g p q df method minObs = .ok r)
    (hf : ∀ l, f (l.map Prod.swap) = f l)
    (hg : ∀ l, g (l.map Prod.swap) = g l)
    (hfd : ∀ l, (∀ pr ∈ l, pr.1 = pr.2) → Dvar (l.map Prod.fst) ≠ 0 →
      f l = 1)
    (hgd : ∀ l, (∀ pr ∈ l, pr.1 = pr.2) → Dvar (l.map Prod.fst) ≠ 0 →
      g l = 1)
    (hp : ∀ x y, p x y = p y x)
    (hq : ∀ x y, q x y = q y x) :
    (∀ m, r.pearson = some m ∨ r.spearman = some m →
      ∀ i j, coeffAt m i j = coeffAt m j i) ∧
    (∀ pm, r.pearsonPvalues = some pm ∨ r.spearmanPvalues = some pm →
      (∀ i j, pvalAt pm i j = pvalAt pm j i) ∧ ∀ i, pvalAt pm i i = 0) ∧
    (∀ m, r.pearson = some m ∨ r.spearman = some m →
      ∀ i, i < r.cols.length →
        (¬ AllSame ((((validCols df minObs).map Prod.snd).getD i
            []).filterMap id) → coeffAt m i i = some 1) ∧
        (AllSame ((((validCols df minObs).map Prod.snd).getD i
            []).filterMap id) → coeffAt m i i = none)) := by
  have hd := calculate_correlations_def f g p q df method minObs
  by_cases h2 : (validCols df minObs).length < 2
  · rw [hd, if_pos h2] at hok
    exact Except.noConfusion hok
  · rw [hd, if_neg h2, Except.ok.injEq] at hok
    subst hok
    refine ⟨?_, ?_, ?_⟩
    · intro m hm
      rcases hm with hm | hm
      · have hm' : (if method = Method.pearson ∨ method = Method.both then
            some (coeffMatrix (pearsonEntry f)
              ((validCols df minObs).map Prod.snd))
            else none) = some m := hm
        by_cases hmp : method = Method.pearson ∨ method = Method.both
        · rw [if_pos hmp, Option.some.injEq] at hm'
          subst hm'
          exact fun i j => coeffMatrix_symm _ (pearsonEntry_symm f hf) _ i j
        · rw [if_neg hmp] at hm'
          exact Option.noConfusion hm'
      · have hm' : (if method = Method.spearman ∨ method = Method.both then
            some (coeffMatrix (spearmanEntry g)
              ((validCols df minObs).map Prod.snd))
            else none) = some m := hm
        by_cases hms : method = Method.spearman ∨ method = Method.both
        · rw [if_pos hms, Option.some.injEq] at hm'
          subst hm'
          exact fun i j => coeffMatrix_symm _ (spearmanEntry_symm g hg) _ i j
        · rw [if_neg hms] at hm'
          exact Option.noConfusion hm'
    · intro pm hpm
      rcases hpm with hpm | hpm
      · have hpm' : (if method = Method.pearson ∨ method = Method.both then
            some (pvalueMatrix p ((validCols df minObs).map Prod.snd))
            else none) = some pm := hpm
        by_cases hmp : method = Method.pearson ∨ method = Method.both
        · rw [if_pos hmp, Option.some.injEq] at hpm'
          subst hpm'
          exact ⟨fun i j => pvalueMatrix_symm p hp _ i j,
            fun i => pvalueMatrix_diag p _ i⟩
        · rw [if_neg hmp] at hpm'
          exact Option.noConfusion hpm'
      · have hpm' : (if method = Method.spearman ∨ method = Method.both then
            some (pvalueMatrix q ((validCols df minObs).map Prod.snd))
            else none) = some pm := hpm
        by_cases hms : method = Method.spearman ∨ method = Method.both
        · rw [if_pos hms, Option.some.injEq] at hpm'
          subst hpm'
          exact ⟨fun i j => pvalueMatrix_symm q hq _ i j,
            fun i => pvalueMatrix_diag q _ i⟩
        · rw [if_neg hms] at hpm'
          exact Option.noConfusion hpm'
    · intro m hm i hi
      have hi' : i < ((validCols df minObs).map Prod.snd).length := by
        simpa using hi
      rcases hm with hm | hm
      · have hm' : (if method = Method.pearson ∨ method = Method.both then
            some (coeffMatrix (pearsonEntry f)
              ((validCols df minObs).map Prod.snd))
            else none) = some m := hm
        by_cases hmp : method = Method.pearson ∨ method = Method.both
        · rw [if_pos hmp, Option.some.injEq] at hm'
          subst hm'
          rw [coeffMatrix_entry _ _ i i hi' hi']
          exact ⟨fun hns => pearsonEntry_diag_ne f hfd _ hns,
            fun hs => pearsonEntry_diag_allSame f _ hs⟩
        · rw [if_neg hmp] at hm'
          exact Option.noConfusion hm'
      · have hm' : (if method = Method.spearman ∨ method = Method.both then
            some (coeffMatrix (spearmanEntry g)
              ((validCols df minObs).map Prod.snd))
            else none) = some m := hm
        by_cases hms : method = Method.spearman ∨ method = Method.both
        · rw [if_pos hms, Option.some.injEq] at hm'
          subst hm'
          rw [coeffMatrix_entry _ _ i i hi' hi']
          exact ⟨fun hns => spearmanEntry_diag_ne g hgd _ hns,
            fun hs => spearmanEntry_diag_allSame g _ hs⟩
        · rw [if_neg hms] at hm'
          exact Option.noConfusion hm'

/-- Fixture: a frame whose first column is constant (zero variance) with
full observation counts. -/
def dfC : Df :=
  ⟨3, [("a", [some 5, some 5, some 5]), ("b", [some 1, some 2, some 3])]⟩

/-- Result of `calculate_correlations` on `dfC` with the trivial kernels:
the constant column's coefficient entries, diagonal included, are NaN. -/
def rC : CorrResult :=
  { cols := ["a", "b"]
    pearson := some [[none, none], [none, some 1]]
    pearsonPvalues := some [[0, 1/2], [1/2, 0]]
    spearman := some [[none, none], [none, some 1]]
    spearmanPvalues := some [[0, 1/2], [1/2, 0]] }

/-- Concrete evaluation of `calculate_correlations` on the fixture `dfC`. -/
theorem calculate_correlations_dfC :
    calculate_correlations kernF kernF kernP kernP dfC .both 3 =
      .ok rC := by
  norm_num [calculate_correlations, validCols, numericCols, nonNullCount,
    dfC, rC, coeffMatrix, pvalueMatrix, pvalueEntry, pearsonEntry,
    spearmanEntry, jointRows, jointRow, Dvar, rankAvg, kernF, kernP,
    List.filterMap_cons, List.countP_cons, List.countP_nil,
    List.range_succ, List.filter_cons, List.filter_nil,
    show ("a" : String) ≠ "station_id" from by decide,
    show ("b" : String) ≠ "station_id" from by decide]

/-- Projection of a successful result (junk on error). -/
def okResult (e : Except String CorrResult) : CorrResult :=
  match e with
  | .ok r => r
  | .error _ => ⟨[], none, none, none, none⟩

/-- Counterexample to C9 as stated: on a frame with a constant column (30+
observations in production, 3 here with `min_observations = 3`) the
returned Pearson matrix has a NaN diagonal entry, not 1.0. -/
theorem claim_C9_counterexample :
    (calculate_correlations kernF kernF kernP kernP dfC .both 3).isOk =
      true ∧
    coeffAt ((okResult (calculate_correlations kernF kernF kernP kernP dfC
      .both 3)).pearson.getD []) 0 0 ≠ some 1 := by
  rw [calculate_correlations_dfC]
  refine ⟨rfl, ?_⟩
  have hval : coeffAt ((okResult (Except.ok rC)).pearson.getD []) 0 0 =
      none := by
    norm_num [okResult, rC, coeffAt]
  rw [hval]
  simp

/-- Witness for C9 amended on the non-degenerate fixture `dfA`: symmetry
holds, the p-value diagonal is 0, and both columns being non-constant the
coefficient diagonal is 1. -/
theorem claim_C9_witness :
    coeffAt [[some 1, some 1], [some 1, some 1]] 0 1 =
      coeffAt [[some 1, some 1], [some 1, some 1]] 1 0 ∧
    pvalAt [[(0 : ℚ), 1], [1, 0]] 0 1 = pvalAt [[(0 : ℚ), 1], [1, 0]] 1 0 ∧
    coeffAt [[some 1, some 1], [some 1, some 1]] 0 0 = some 1 := by
  have h := claim_C9_amended kernF kernF kernP kernP dfA .both 2 rA
    calculate_correlations_dfA (fun l => rfl) (fun l => rfl)
    (fun l _ _ => rfl) (fun l _ _ => rfl) (fun x y => rfl) (fun x y => rfl)
  have hxs : (((validCols dfA 2).map Prod.snd).getD 0 []).filterMap id =
      [1, 2] := by
    norm_num [validCols, numericCols, nonNullCount, dfA,
      List.filter_cons, List.filter_nil, List.filterMap_cons,
      show ("a" : String) ≠ "station_id" from by decide,
      show ("b" : String) ≠ "station_id" from by decide]
  refine ⟨h.1 [[some 1, some 1], [some 1, some 1]] (Or.inl rfl) 0 1,
    (h.2.1 [[0, 1], [1, 0]] (Or.inl rfl)).1 0 1,
    (h.2.2 [[some 1, some 1], [some 1, some 1]] (Or.inl rfl) 0
      (by norm_num [rA])).1 ?_⟩
  rw [hxs]
  intro hAS
  have h12 := hAS 1 (by norm_num) 2 (by norm_num)
  norm_num at h12

/-! ### C1: identify_strong_correlations -/

/-- A strong-correlation record `(var1, var2, correlation, p-value)`. -/
abbrev SCRec : Type := String × String × ℚ × Option ℚ

/-- The collection loop of `identify_strong_correlations`: for each `i`,
for `j in range(i+1, n)`, keep the pair when `|corr| >= threshold` and,
when a p-value matrix is supplied, skip it (`continue`) when
`pval > pvalue_threshold`.  The matrix is given by its column names and an
entry function. -/
def collectStrong (names : List String) (M : ℕ → ℕ → ℚ)
    (P : Option (ℕ → ℕ → ℚ)) (threshold pvalueThreshold : ℚ) :
    List SCRec :=
  (List.range names.length).flatMap fun i =>
    ((List.range names.length).drop (i + 1)).filterMap fun j =>
      if threshold ≤ |M i j| then
        match P with
        | none => some (names.getD i "", names.getD j "", M i j, none)
        | some pm =>
          if pvalueThreshold < pm i j then none
          else some (names.getD i "", names.getD j "", M i j, some (pm i j))
      else none

/-- Embedding of `identify_strong_correlations`: collect the qualifying
upper-triangle pairs, then stable-sort by descending absolute coefficient
(Python's `list.sort(key=..., reverse=True)` is stable). -/
def identify_strong_correlations (names : List String) (M : ℕ → ℕ → ℚ)
    (P : Option (ℕ → ℕ → ℚ)) (threshold pvalueThreshold : ℚ) :
    List SCRec :=
  (collectStrong names M P threshold pvalueThreshold).mergeSort
    fun a b => decide (|b.2.2.1| ≤ |a.2.2.1|)

/-- Spec-side description: the upper-triangle index pairs `(i, j)` with
`i < j`, enumerated once each in matrix iteration order. -/
def upperPairs (n : ℕ) : List (ℕ × ℕ) :=
  (List.range n).flatMap fun i =>
    (List.range n).filterMap fun j =>
      if i < j then some (i, j) else none

/-- Record built for a pair of column indices. -/
def scRecord (names : List String) (M : ℕ → ℕ → ℚ)
    (P : Option (ℕ → ℕ → ℚ)) (i j : ℕ) : SCRec :=
  (names.getD i "", names.getD j "", M i j, P.map fun pm => pm i j)

/-- Spec-side qualification of a pair: `|coefficient| >= threshold` and,
when a p-value matrix is supplied, `p-value <= pvalue_threshold`. -/
def qualifiesB (M : ℕ → ℕ → ℚ) (P : Option (ℕ → ℕ → ℚ)) (t pt : ℚ)
    (i j : ℕ) : Bool :=
  decide (t ≤ |M i j|) &&
    (match P with
     | none => true
     | some pm => decide (pm i j ≤ pt))

/-- Spec-side description of the qualifying records, in matrix iteration
order (before sorting). -/
def strongPairsSpec (names : List String) (M : ℕ → ℕ → ℚ)
    (P : Option (ℕ → ℕ → ℚ)) (t pt : ℚ) : List SCRec :=
  (upperPairs names.length).filterMap fun pr =>
    if qualifiesB M P t pt pr.1 pr.2 then
      some (scRecord names M P pr.1 pr.2)
    else none

theorem drop_append_le {α : Type} (l1 l2 : List α) (k : ℕ)
    (h : k ≤ l1.length) : (l1 ++ l2).drop k = l1.drop k ++ l2 := by
  induction l1 generalizing k with
  | nil =>
    have : k = 0 := by simpa using h
    subst this
    simp
  | cons x t ih =>
    cases k with
    | zero => simp
    | succ k => simpa using ih k (by simpa using h)

theorem range_filter_lt (n i : ℕ) :
    (List.range n).filter (fun j => decide (i < j)) =
      (List.range n).drop (i + 1) := by
  induction n with
  | zero => simp
  | succ n ih =>
    rw [List.range_succ, List.filter_append, ih]
    by_cases h : i < n
    · rw [drop_append_le _ _ _ (by simpa using h)]
      simp [h]
    · have h1 : (List.range n).drop (i + 1) = [] :=
        List.drop_eq_nil_of_le (by simp; omega)
      have h2 : (List.range n ++ [n]).drop (i + 1) = [] :=
        List.drop_eq_nil_of_le (by simp; omega)
      rw [h1, h2]
      simp [h]

/-- The collection loop produces exactly the spec-side record list, in the
same order. -/
theorem collectStrong_eq_spec (names : List String) (M : ℕ → ℕ → ℚ)
    (P : Option (ℕ → ℕ → ℚ)) (t pt : ℚ) :
    collectStrong names M P t pt = strongPairsSpec names M P t pt := by
  unfold collectStrong strongPairsSpec upperPairs
  rw [List.filterMap_flatMap]
  congr 1
  funext i
  rw [← range_filter_lt, List.filterMap_filter, List.filterMap_filterMap]
  congr 1
  funext j
  by_cases hij : i < j
  · cases P with
    | none =>
      by_cases h1 : t ≤ |M i j| <;>
        simp [hij, qualifiesB, scRecord, h1]
    | some pm =>
      by_cases h1 : t ≤ |M i j|
      · by_cases h2 : pm i j ≤ pt
        · have hlt : ¬ pt < pm i j := not_lt.mpr h2
          simp [hij, qualifiesB, scRecord, h1, h2, hlt]
        · have hlt : pt < pm i j := not_le.mp h2
          simp [hij, qualifiesB, scRecord, h1, h2, hlt]
      · simp [hij, qualifiesB, scRecord, h1]
  · simp [hij]

theorem mem_upperPairs (n : ℕ) (pr : ℕ × ℕ) :
    pr ∈ upperPairs n ↔ pr.1 < pr.2 ∧ pr.2 < n := by
  unfold upperPairs
  constructor
  · intro h
    obtain ⟨i, hi, hpr⟩ := List.mem_flatMap.mp h
    obtain ⟨j, hj, hif⟩ := List.mem_filterMap.mp hpr
    by_cases hij : i < j
    · rw [if_pos hij, Option.some.injEq] at hif
      subst hif
      exact ⟨hij, List.mem_range.mp hj⟩
    · rw [if_neg hij] at hif
      exact Option.noConfusion hif
  · intro ⟨h1, h2⟩
    refine List.mem_flatMap.mpr ⟨pr.1,
      List.mem_range.mpr (lt_trans h1 h2),
      List.mem_filterMap.mpr ⟨pr.2, List.mem_range.mpr h2, ?_⟩⟩
    rw [if_pos h1]

theorem nodup_filterMap_of {α β : Type} (l : List α) (F : α → Option β)
    (hl : l.Nodup)
    (hinj : ∀ a ∈ l, ∀ b ∈ l, ∀ c, F a = some c → F b = some c → a = b) :
    (l.filterMap F).Nodup := by
  induction l with
  | nil => simp
  | cons x t ih =>
    rw [List.filterMap_cons]
    have hx : x ∉ t := (List.nodup_cons.mp hl).1
    have ht : t.Nodup := (List.nodup_cons.mp hl).2
    have hinj' : ∀ a ∈ t, ∀ b ∈ t, ∀ c, F a = some c → F b = some c →
        a = b := fun a ha b hb c h1 h2 =>
      hinj a (List.mem_cons_of_mem _ ha) b (List.mem_cons_of_mem _ hb) c h1 h2
    cases hF : F x with
    | none => exact ih ht hinj'
    | some c =>
      refine List.nodup_cons.mpr ⟨?_, ih ht hinj'⟩
      intro hc
      obtain ⟨b, hb, hFb⟩ := List.mem_filterMap.mp hc
      have := hinj x (List.mem_cons_self x t) b
        (List.mem_cons_of_mem _ hb) c hF hFb
      exact hx (this ▸ hb)

theorem upperPairs_nodup (n : ℕ) : (upperPairs n).Nodup := by
  unfold upperPairs
  rw [List.nodup_flatMap]
  constructor
  · intro i _
    apply nodup_filterMap_of _ _ (List.nodup_range n)
    intro a _ b _ c h1 h2
    by_cases ha : i < a
    · rw [if_pos ha, Option.some.injEq] at h1
      by_cases hb : i < b
      · rw [if_pos hb, Option.some.injEq] at h2
        have h := h1.trans h2.symm
        rw [Prod.mk.injEq] at h
        exact h.2
      · rw [if_neg hb] at h2
        exact Option.noConfusion h2
    · rw [if_neg ha] at h1
      exact Option.noConfusion h1
  · have hdis : ∀ i j : ℕ, i ≠ j →
        List.Disjoint
          ((List.range n).filterMap fun k =>
            if i < k then some (i, k) else none)
          ((List.range n).filterMap fun k =>
            if j < k then some (j, k) else none) := by
      intro i j hij pr hpri hprj
      obtain ⟨a, _, ha⟩ := List.mem_filterMap.mp hpri
      obtain ⟨b, _, hb⟩ := List.mem_filterMap.mp hprj
      by_cases h1 : i < a
      · rw [if_pos h1, Option.some.injEq] at ha
        by_cases h2 : j < b
        · rw [if_pos h2, Option.some.injEq] at hb
          apply hij
          have h := ha.trans hb.symm
          rw [Prod.mk.injEq] at h
          exact h.1
        · rw [if_neg h2] at hb
          exact Option.noConfusion hb
      · rw [if_neg h1] at ha
        exact Option.noConfusion ha
    exact (List.nodup_range n).imp fun hij => hdis _ _ hij

theorem mem_strongPairsSpec (names : List String) (M : ℕ → ℕ → ℚ)
    (P : Option (ℕ → ℕ → ℚ)) (t pt : ℚ) (r : SCRec) :
    r ∈ strongPairsSpec names M P t pt ↔
      ∃ i j, i < j ∧ j < names.length ∧
        qualifiesB M P t pt i j = true ∧ r = scRecord names M P i j := by
  unfold strongPairsSpec
  constructor
  · intro h
    obtain ⟨pr, hpr, hif⟩ := List.mem_filterMap.mp h
    obtain ⟨h1, h2⟩ := (mem_upperPairs _ _).mp hpr
    cases hq : qualifiesB M P t pt pr.1 pr.2 with
    | false =>
      rw [hq] at hif
      simp at hif
    | true =>
      rw [hq] at hif
      simp only [if_true] at hif
      rw [Option.some.injEq] at hif
      exact ⟨pr.1, pr.2, h1, h2, hq, hif.symm⟩
  · rintro ⟨i, j, h1, h2, hq, rfl⟩
    exact List.mem_filterMap.mpr ⟨(i, j),
      (mem_upperPairs _ _).mpr ⟨h1, h2⟩, by simp [hq]⟩

theorem nodup_getD_inj (names : List String) (hnd : names.Nodup)
    (i j : ℕ) (hi : i < names.length) (hj : j < names.length)
    (h : names.getD i "" = names.getD j "") : i = j := by
  rw [List.getD_eq_getElem _ _ hi, List.getD_eq_getElem _ _ hj] at h
  exact (List.Nodup.getElem_inj_iff hnd).mp h

/-- C1: `identify_strong_correlations` returns a permutation of exactly
the qualifying upper-triangle records (each once, in particular never both
(A,B) and (B,A) under distinct column names), sorted descending by
absolute coefficient, with ties kept in matrix iteration order (the filter
of the output at each absolute value equals the filter of the iteration-
order list). -/
theorem claim_C1 (names : List String) (M : ℕ → ℕ → ℚ)
    (P : Option (ℕ → ℕ → ℚ)) (t pt : ℚ) :
    (identify_strong_correlations names M P t pt).Perm
      (strongPairsSpec names M P t pt) ∧
    (identify_strong_correlations names M P t pt).Pairwise
      (fun a b => |b.2.2.1| ≤ |a.2.2.1|) ∧
    (∀ v : ℚ, (identify_strong_correlations names M P t pt).filter
        (fun r => decide (|r.2.2.1| = v)) =
      (strongPairsSpec names M P t pt).filter
        (fun r => decide (|r.2.2.1| = v))) ∧
    (∀ i j, i < j → j < names.length →
      (t ≤ |M i j| ∧ ∀ pm, P = some pm → pm i j ≤ pt) →
      scRecord names M P i j ∈
        identify_strong_correlations names M P t pt) ∧
    (names.Nodup →
      ((identify_strong_correlations names M P t pt).map
        fun r => (r.1, r.2.1)).Nodup ∧
      ∀ r ∈ identify_strong_correlations names M P t pt,
        ∀ r' ∈ identify_strong_correlations names M P t pt,
          r.1 = r'.2.1 → r.2.1 = r'.1 → False) := by
  have htrans : ∀ a b c : SCRec,
      decide (|b.2.2.1| ≤ |a.2.2.1|) = true →
      decide (|c.2.2.1| ≤ |b.2.2.1|) = true →
      decide (|c.2.2.1| ≤ |a.2.2.1|) = true := by
    intro a b c hab hbc
    rw [decide_eq_true_eq] at hab hbc ⊢
    exact le_trans hbc hab
  have htotal : ∀ a b : SCRec,
      (decide (|b.2.2.1| ≤ |a.2.2.1|) ||
        decide (|a.2.2.1| ≤ |b.2.2.1|)) = true := by
    intro a b
    rw [Bool.or_eq_true, decide_eq_true_eq, decide_eq_true_eq]
    exact le_total _ _
  have hperm : (identify_strong_correlations names M P t pt).Perm
      (strongPairsSpec names M P t pt) := by
    unfold identify_strong_correlations
    rw [collectStrong_eq_spec]
    exact List.mergeSort_perm _ _
  refine ⟨hperm, ?_, ?_, ?_, ?_⟩
  · have h := List.sorted_mergeSort htrans htotal
      (collectStrong names M P t pt)
    exact h.imp fun hab => of_decide_eq_true hab
  · intro v
    have hSpair : ((strongPairsSpec names M P t pt).filter
        (fun r => decide (|r.2.2.1| = v))).Pairwise
        (fun a b : SCRec => decide (|b.2.2.1| ≤ |a.2.2.1|)) := by
      apply List.pairwise_of_forall_mem_list
      intro a ha b hb
      have hav := (List.mem_filter.mp ha).2
      have hbv := (List.mem_filter.mp hb).2
      simp only [decide_eq_true_eq] at hav hbv
      exact decide_eq_true (le_of_eq (hbv.trans hav.symm))
    have hSsub : List.Sublist
        ((strongPairsSpec names M P t pt).filter
          (fun r => decide (|r.2.2.1| = v)))
        (collectStrong names M P t pt) := by
      rw [collectStrong_eq_spec]
      exact List.filter_sublist _
    have hSout : List.Sublist
        ((strongPairsSpec names M P t pt).filter
          (fun r => decide (|r.2.2.1| = v)))
        (identify_strong_correlations names M P t pt) :=
      List.sublist_mergeSort htrans htotal hSpair hSsub
    have hperm2 : ((identify_strong_correlations names M P t pt).filter
        (fun r => decide (|r.2.2.1| = v))).Perm
        ((strongPairsSpec names M P t pt).filter
          (fun r => decide (|r.2.2.1| = v))) :=
      hperm.filter _
    have hself : ((strongPairsSpec names M P t pt).filter
        (fun r => decide (|r.2.2.1| = v))).filter
          (fun r => decide (|r.2.2.1| = v)) =
        (strongPairsSpec names M P t pt).filter
          (fun r => decide (|r.2.2.1| = v)) := by
      apply List.filter_eq_self.mpr
      intro a ha
      exact (List.mem_filter.mp ha).2
    have hsub2 : List.Sublist
        ((strongPairsSpec names M P t pt).filter
          (fun r => decide (|r.2.2.1| = v)))
        ((identify_strong_correlations names M P t pt).filter
          (fun r => decide (|r.2.2.1| = v))) := by
      have h := hSout.filter (fun r => decide (|r.2.2.1| = v))
      rwa [hself] at h
    exact (hsub2.eq_of_length hperm2.length_eq.symm).symm
  · intro i j hij hjn hq
    have hqB : qualifiesB M P t pt i j = true := by
      unfold qualifiesB
      rw [Bool.and_eq_true]
      refine ⟨decide_eq_true hq.1, ?_⟩
      cases P with
      | none => rfl
      | some pm => exact decide_eq_true (hq.2 pm rfl)
    exact hperm.mem_iff.mpr ((mem_strongPairsSpec names M P t pt _).mpr
      ⟨i, j, hij, hjn, hqB, rfl⟩)
  · intro hnd
    have hmapspec : ((strongPairsSpec names M P t pt).map
        fun r => (r.1, r.2.1)).Nodup := by
      unfold strongPairsSpec
      rw [List.map_filterMap]
      apply nodup_filterMap_of _ _ (upperPairs_nodup names.length)
      intro a ha b hb c h1 h2
      obtain ⟨ha1, ha2⟩ := (mem_upperPairs _ _).mp ha
      obtain ⟨hb1, hb2⟩ := (mem_upperPairs _ _).mp hb
      cases hqa : qualifiesB M P t pt a.1 a.2 with
      | false =>
        rw [hqa] at h1
        simp at h1
      | true =>
        rw [hqa] at h1
        simp only [if_true, Option.map_some'] at h1
        cases hqb : qualifiesB M P t pt b.1 b.2 with
        | false =>
          rw [hqb] at h2
          simp at h2
        | true =>
          rw [hqb] at h2
          simp only [if_true, Option.map_some'] at h2
          rw [Option.some.injEq] at h1 h2
          have hc := h1.trans h2.symm
          simp only [scRecord, Prod.mk.injEq] at hc
          have e1 : a.1 = b.1 := nodup_getD_inj names hnd a.1 b.1
            (lt_trans ha1 ha2) (lt_trans hb1 hb2) hc.1
          have e2 : a.2 = b.2 := nodup_getD_inj names hnd a.2 b.2
            ha2 hb2 hc.2
          exact Prod.ext e1 e2
    refine ⟨(hperm.map _).nodup_iff.mpr hmapspec, ?_⟩
    intro r hr r' hr' hAB hBA
    obtain ⟨i, j, hij, hjn, _, rfl⟩ :=
      (mem_strongPairsSpec names M P t pt _).mp (hperm.mem_iff.mp hr)
    obtain ⟨i', j', hij', hjn', _, rfl⟩ :=
      (mem_strongPairsSpec names M P t pt _).mp (hperm.mem_iff.mp hr')
    simp only [scRecord] at hAB hBA
    have h1 : i = j' := nodup_getD_inj names hnd i j'
      (lt_trans hij hjn) hjn' hAB
    have h2 : j = i' := nodup_getD_inj names hnd j i'
      hjn (lt_trans hij' hjn') hBA
    omega

/-- Fixture names for the C1 witness. -/
def namesW : List String := ["x", "y"]

/-- Fixture matrix for the C1 witness. -/
def MW : ℕ → ℕ → ℚ := fun _ _ => 9/10

/-- Witness for C1: the qualifying pair (x, y) is returned, and the
returned name pairs contain no duplicates. -/
theorem claim_C1_witness :
    scRecord namesW MW none 0 1 ∈
      identify_strong_correlations namesW MW none (7/10) (1/20) ∧
    ((identify_strong_correlations namesW MW none (7/10) (1/20)).map
      fun r => (r.1, r.2.1)).Nodup := by
  have h := claim_C1 namesW MW none (7/10) (1/20)
  refine ⟨h.2.2.2.1 0 1 (by norm_num) (by norm_num [namesW])
    ⟨?_, fun pm hpm => Option.noConfusion hpm⟩,
    (h.2.2.2.2 (by decide)).1⟩
  show (7 : ℚ)/10 ≤ |MW 0 1|
  rw [show MW 0 1 = 9/10 from rfl,
    abs_of_nonneg (by norm_num : (0 : ℚ) ≤ 9/10)]
  norm_num

/-! ### Temporal stability: `analyze_temporal_stability` -/

/-- One recorded window of `analyze_temporal_stability`: its start day,
its end day (start + window_days) and the number of fetched rows. -/
structure WindowInfo where
  wStart : ℤ
  wEnd : ℤ
  observations : ℕ
deriving DecidableEq

/-- Tracked series of one parameter pair: the dict entry stored under the
key `f"{param1}_vs_{param2}"`, with the pearson and spearman values
appended window by window.  The key is modelled as the pair of names,
which matches the f-string key whenever no parameter name itself contains
the separator. -/
structure PairSeries where
  param1 : String
  param2 : String
  pearson : List (Option ℚ)
  spearman : List (Option ℚ)
deriving DecidableEq

/-- Result dictionary of `analyze_temporal_stability`: the recorded
windows and the tracked per-pair series, the latter as a list of dict
entries in insertion order. -/
structure TSResult where
  windows : List WindowInfo
  correlations : List PairSeries
deriving DecidableEq

/-- Initial correlation tracking: one empty entry per index pair with
`i < j`, in iteration order of the two nested `enumerate(parameters)`
loops. -/
def initPairs (parameters : List String) : List PairSeries :=
  (List.range parameters.length).flatMap fun i =>
    (List.range parameters.length).filterMap fun j =>
      if i < j then
        some ⟨parameters.getD i "", parameters.getD j "", [], []⟩
      else none

/-- Label-based lookup `matrix.loc[param1, param2]` in an optional
matrix whose rows and columns are labelled by `cols`. -/
def locEntry (om : Option (List (List (Option ℚ)))) (cols : List String)
    (a b : String) : Option ℚ :=
  match om with
  | some m => coeffAt m (cols.indexOf a) (cols.indexOf b)
  | none => none

/-- Per-pair extraction step of one successful window: when both
parameters survived into the matrices, append this window's pearson and
spearman entries to the pair's series, else leave the series unchanged. -/
def updatePair (r : CorrResult) (e : PairSeries) : PairSeries :=
  if e.param1 ∈ r.cols ∧ e.param2 ∈ r.cols then
    { e with
      pearson := e.pearson ++ [locEntry r.pearson r.cols e.param1 e.param2]
      spearman :=
        e.spearman ++ [locEntry r.spearman r.cols e.param1 e.param2] }
  else e

/-- One iteration body of the sliding-window loop: fetch the window's
frame; when it has at least 30 rows and `calculate_correlations`
succeeds, record the window and extract every tracked pair's entries; on
insufficient rows, or on a failure (caught and logged), the window is
skipped entirely. -/
def processWindow (f g : List (ℚ × ℚ) → ℚ) (p q : List ℚ → List ℚ → ℚ)
    (fetch : ℤ → ℤ → Df) (windowDays : ℤ) (cur : ℤ) (acc : TSResult) :
    TSResult :=
  if 30 ≤ (fetch cur (cur + windowDays)).nRows then
    match calculate_correlations f g p q (fetch cur (cur + windowDays))
        .both 30 with
    | .ok r =>
      { windows := acc.windows ++
          [⟨cur, cur + windowDays, (fetch cur (cur + windowDays)).nRows⟩]
        correlations := acc.correlations.map (updatePair r) }
    | .error _ => acc
  else acc

/-- Fuel-indexed unrolling of the loop
`while current_start + window_days <= end_date`; the fuel only bounds the
recursion depth, and any value at least the number of remaining
iterations yields the loop's result. -/
def tsLoop (f g : List (ℚ × ℚ) → ℚ) (p q : List ℚ → List ℚ → ℚ)
    (fetch : ℤ → ℤ → Df) (endDate windowDays stepDays : ℤ) :
    ℕ → ℤ → TSResult → TSResult
  | 0, _, acc => acc
  | fuel + 1, cur, acc =>
    if cur + windowDays ≤ endDate then
      tsLoop f g p q fetch endDate windowDays stepDays fuel
        (cur + stepDays) (processWindow f g p q fetch windowDays cur acc)
    else acc

/-- Embedding of `CorrelationAnalysisService.analyze_temporal_stability`,
with dates as integer day counts and `load_weather_data` abstracted as
`fetch`.  With `step_days ≥ 1` and `window_days ≥ 0` the while loop runs
at most `end_date - start_date + 1` iterations, so that fuel is exact. -/
def analyze_temporal_stability (f g : List (ℚ × ℚ) → ℚ)
    (p q : List ℚ → List ℚ → ℚ) (fetch : ℤ → ℤ → Df)
    (startDate endDate windowDays stepDays : ℤ)
    (parameters : List String) : TSResult :=
  tsLoop f g p q fetch endDate windowDays stepDays
    ((endDate - startDate).toNat + 1) startDate
    ⟨[], initPairs parameters⟩

/-- Loop invariant of `analyze_temporal_stability`: recorded windows have
at least 30 observations, each pair's two series have equal length, and
no series is longer than the window list. -/
def tsInvariant (res : TSResult) : Prop :=
  (∀ wi ∈ res.windows, 30 ≤ wi.observations) ∧
  ∀ e ∈ res.correlations,
    e.pearson.length = e.spearman.length ∧
    e.pearson.length ≤ res.windows.length

theorem initPairs_empty (parameters : List String) :
    ∀ e ∈ initPairs parameters, e.pearson = [] ∧ e.spearman = [] := by
  intro e he
  unfold initPairs at he
  rw [List.mem_flatMap] at he
  obtain ⟨i, _, hi⟩ := he
  rw [List.mem_filterMap] at hi
  obtain ⟨j, _, hj⟩ := hi
  by_cases h : i < j
  · rw [if_pos h, Option.some_inj] at hj
    subst hj
    exact ⟨rfl, rfl⟩
  · rw [if_neg h] at hj
    exact Option.noConfusion hj

theorem updatePair_lengths (r : CorrResult) (e : PairSeries) :
    ((updatePair r e).pearson.length = e.pearson.length ∧
      (updatePair r e).spearman.length = e.spearman.length) ∨
    ((updatePair r e).pearson.length = e.pearson.length + 1 ∧
      (updatePair r e).spearman.length = e.spearman.length + 1) := by
  unfold updatePair
  by_cases h : e.param1 ∈ r.cols ∧ e.param2 ∈ r.cols
  · right
    rw [if_pos h]
    simp
  · left
    rw [if_neg h]
    exact ⟨rfl, rfl⟩

theorem processWindow_inv (f g : List (ℚ × ℚ) → ℚ)
    (p q : List ℚ → List ℚ → ℚ) (fetch : ℤ → ℤ → Df) (w cur : ℤ)
    (acc : TSResult) (h : tsInvariant acc) :
    tsInvariant (processWindow f g p q fetch w cur acc) := by
  unfold processWindow
  by_cases h30 : 30 ≤ (fetch cur (cur + w)).nRows
  · rw [if_pos h30]
    cases hc : calculate_correlations f g p q (fetch cur (cur + w))
        .both 30 with
    | error s => exact h
    | ok r =>
      constructor
      · intro wi hwi
        rcases List.mem_append.mp hwi with hl | hr
        · exact h.1 wi hl
        · rw [List.mem_singleton] at hr
          subst hr
          exact h30
      · intro e he
        obtain ⟨e0, he0, rfl⟩ := List.mem_map.mp he
        have h0 := h.2 e0 he0
        have hwlen : ((acc.windows ++
            [(⟨cur, cur + w, (fetch cur (cur + w)).nRows⟩ : WindowInfo)]).length)
            = acc.windows.length + 1 := by
          simp
        rcases updatePair_lengths r e0 with ⟨h1, h2⟩ | ⟨h1, h2⟩
        · refine ⟨by rw [h1, h2, h0.1], ?_⟩
          show (updatePair r e0).pearson.length ≤
            (acc.windows ++
              [(⟨cur, cur + w, (fetch cur (cur + w)).nRows⟩ : WindowInfo)]).length
          rw [h1, hwlen]
          omega
        · refine ⟨by rw [h1, h2, h0.1], ?_⟩
          show (updatePair r e0).pearson.length ≤
            (acc.windows ++
              [(⟨cur, cur + w, (fetch cur (cur + w)).nRows⟩ : WindowInfo)]).length
          rw [h1, hwlen]
          omega
  · rw [if_neg h30]
    exact h

theorem tsLoop_inv (f g : List (ℚ × ℚ) → ℚ)
    (p q : List ℚ → List ℚ → ℚ) (fetch : ℤ → ℤ → Df)
    (endD w s : ℤ) (fuel : ℕ) :
    ∀ (cur : ℤ) (acc : TSResult), tsInvariant acc →
      tsInvariant (tsLoop f g p q fetch endD w s fuel cur acc) := by
  induction fuel with
  | zero => exact fun cur acc h => h
  | succ n ih =>
    intro cur acc h
    show tsInvariant
      (if cur + w ≤ endD then
        tsLoop f g p q fetch endD w s n (cur + s)
          (processWindow f g p q fetch w cur acc)
      else acc)
    by_cases hle : cur + w ≤ endD
    · rw [if_pos hle]
      exact ih (cur + s) _ (processWindow_inv f g p q fetch w cur acc h)
    · rw [if_neg hle]
      exact h

/-- C10: in every result of `analyze_temporal_stability`, every recorded
window has at least 30 observations, every tracked pair's pearson and
spearman series have equal length, and no pair's series is longer than
the list of recorded windows. -/
theorem claim_C10 (f g : List (ℚ × ℚ) → ℚ) (p q : List ℚ → List ℚ → ℚ)
    (fetch : ℤ → ℤ → Df) (startDate endDate windowDays stepDays : ℤ)
    (parameters : List String) :
    (∀ wi ∈ (analyze_temporal_stability f g p q fetch startDate endDate
        windowDays stepDays parameters).windows,
      30 ≤ wi.observations) ∧
    ∀ e ∈ (analyze_temporal_stability f g p q fetch startDate endDate
        windowDays stepDays parameters).correlations,
      e.pearson.length = e.spearman.length ∧
      e.pearson.length ≤ (analyze_temporal_stability f g p q fetch
        startDate endDate windowDays stepDays parameters).windows.length
    := by
  have hinit : tsInvariant ⟨[], initPairs parameters⟩ := by
    constructor
    · intro wi hwi
      exact absurd hwi (List.not_mem_nil wi)
    · intro e he
      have h := initPairs_empty parameters e he
      rw [h.1, h.2]
      exact ⟨rfl, Nat.zero_le _⟩
  exact tsLoop_inv f g p q fetch endDate windowDays stepDays _
    startDate _ hinit

/-! ### Concrete temporal fixtures -/

/-- Unfolding equation of one loop step. -/
theorem tsLoop_succ (f g : List (ℚ × ℚ) → ℚ) (p q : List ℚ → List ℚ → ℚ)
    (fetch : ℤ → ℤ → Df) (endD w s : ℤ) (fuel : ℕ) (cur : ℤ)
    (acc : TSResult) :
    tsLoop f g p q fetch endD w s (fuel + 1) cur acc =
      if cur + w ≤ endD then
        tsLoop f g p q fetch endD w s fuel (cur + s)
          (processWindow f g p q fetch w cur acc)
      else acc := rfl

/-- A window whose frame has at least 30 rows and whose correlation
computation succeeds is recorded and extracted. -/
theorem processWindow_ok (f g : List (ℚ × ℚ) → ℚ)
    (p q : List ℚ → List ℚ → ℚ) (fetch : ℤ → ℤ → Df) (w cur : ℤ)
    (acc : TSResult) (r : CorrResult)
    (h30 : 30 ≤ (fetch cur (cur + w)).nRows)
    (hc : calculate_correlations f g p q (fetch cur (cur + w)) .both 30 =
      .ok r) :
    processWindow f g p q fetch w cur acc =
      ⟨acc.windows ++
          [(⟨cur, cur + w, (fetch cur (cur + w)).nRows⟩ : WindowInfo)],
        acc.correlations.map (updatePair r)⟩ := by
  unfold processWindow
  rw [if_pos h30, hc]

/-- The window list grows by exactly the new window on any successful
window, whatever the matrices are. -/
theorem processWindow_windows (f g : List (ℚ × ℚ) → ℚ)
    (p q : List ℚ → List ℚ → ℚ) (fetch : ℤ → ℤ → Df) (w cur : ℤ)
    (acc : TSResult) (h30 : 30 ≤ (fetch cur (cur + w)).nRows)
    (hok : (calculate_correlations f g p q (fetch cur (cur + w))
      .both 30).isOk = true) :
    (processWindow f g p q fetch w cur acc).windows =
      acc.windows ++
        [(⟨cur, cur + w, (fetch cur (cur + w)).nRows⟩ : WindowInfo)] := by
  unfold processWindow
  rw [if_pos h30]
  cases hc : calculate_correlations f g p q (fetch cur (cur + w))
      .both 30 with
  | ok r => rfl
  | error s =>
    rw [hc] at hok
    exact absurd hok (by simp [Except.isOk, Except.toBool])

/-- Constant two-column frame with 30 rows, all values present. -/
def df30 : Df :=
  ⟨30, [("a", List.replicate 30 (some 1)), ("b", List.replicate 30 (some 1))]⟩

/-- Fetch function returning `df30` for every window. -/
def fetch30 : ℤ → ℤ → Df := fun _ _ => df30

/-- Result of `calculate_correlations` on `df30` with the trivial
kernels: both constant columns survive the observation filter, the
coefficient matrices are all-NaN (zero variance), and the p-value
matrices have 0 on the diagonal and the kernel value elsewhere. -/
def r30 : CorrResult :=
  { cols := ["a", "b"]
    pearson := some [[none, none], [none, none]]
    pearsonPvalues := some [[0, 1/2], [1/2, 0]]
    spearman := some [[none, none], [none, none]]
    spearmanPvalues := some [[0, 1/2], [1/2, 0]] }

/-- Concrete evaluation of `calculate_correlations` on `df30`. -/
theorem calc_corr_df30 :
    calculate_correlations kernF kernF kernP kernP df30 .both 30 =
      .ok r30 := by
  norm_num [calculate_correlations, validCols, numericCols, nonNullCount,
    df30, r30, coeffMatrix, pvalueMatrix, pvalueEntry, pearsonEntry,
    spearmanEntry, jointRows, Dvar, rankAvg, kernF, kernP,
    List.countP_replicate, List.map_replicate, List.sum_replicate,
    List.zip_replicate', List.filterMap_replicate, nsmul_eq_mul,
    List.range_succ, List.filter_cons, List.filter_nil,
    List.getD_cons_zero, List.getD_cons_succ,
    show jointRow ((some 1 : Option ℚ), (some 1 : Option ℚ)) =
      some ((1 : ℚ), (1 : ℚ)) from rfl,
    show ("a" : String) ≠ "station_id" from by decide,
    show ("b" : String) ≠ "station_id" from by decide]

/-- Full evaluation of `analyze_temporal_stability` on the constant
fetch over the 90-day range with window 30 and step 30: the inclusive
loop guard records three windows, and the single tracked pair collects
one (NaN) pearson and spearman entry per window. -/
theorem analyze_fetch30_result :
    analyze_temporal_stability kernF kernF kernP kernP fetch30 0 90 30 30
        ["a", "b"] =
      ⟨[⟨0, 0 + 30, 30⟩, ⟨0 + 30, 0 + 30 + 30, 30⟩,
          ⟨0 + 30 + 30, 0 + 30 + 30 + 30, 30⟩],
        [⟨"a", "b", [none, none, none], [none, none, none]⟩]⟩ := by
  unfold analyze_temporal_stability
  rw [show ((90 : ℤ) - 0).toNat + 1 = 91 from by decide,
    show (91 : ℕ) = 90 + 1 from rfl,
    tsLoop_succ, if_pos (by decide : (0 : ℤ) + 30 ≤ 90),
    show (90 : ℕ) = 89 + 1 from rfl,
    tsLoop_succ, if_pos (by decide : (0 : ℤ) + 30 + 30 ≤ 90),
    show (89 : ℕ) = 88 + 1 from rfl,
    tsLoop_succ, if_pos (by decide : (0 : ℤ) + 30 + 30 + 30 ≤ 90),
    show (88 : ℕ) = 87 + 1 from rfl,
    tsLoop_succ, if_neg (by decide : ¬((0 : ℤ) + 30 + 30 + 30 + 30 ≤ 90))]
  rw [processWindow_ok kernF kernF kernP kernP fetch30 30 0 _ r30
      (Nat.le_refl 30) calc_corr_df30,
    processWindow_ok kernF kernF kernP kernP fetch30 30 (0 + 30) _ r30
      (Nat.le_refl 30) calc_corr_df30,
    processWindow_ok kernF kernF kernP kernP fetch30 30 (0 + 30 + 30) _
      r30 (Nat.le_refl 30) calc_corr_df30]
  norm_num [initPairs, updatePair, locEntry, coeffAt, r30,
    List.range_succ, List.getD_cons_zero, List.getD_cons_succ,
    List.indexOf, List.findIdx_cons, fetch30, df30,
    List.filterMap_cons, List.filterMap_nil, Function.comp,
    List.getElem?_cons_zero, List.getElem?_cons_succ, Option.getD_some,
    cond_true, cond_false,
    show (("a" : String) == "b") = false from by decide,
    show (("b" : String) == "b") = true from by decide,
    show (("a" : String) == "a") = true from by decide,
    show (("b" : String) == "a") = false from by decide]

/-- Refutation of C3: for an end date exactly 90 days after the start
with window 30 and step 30, a fetch satisfying the claim's assumptions
(every candidate window has at least 30 rows and a succeeding
correlation computation) yields a window count different from the
claimed 2: the loop guard `current_start + window <= end_date` is
inclusive, so the window starting on day 60 ends exactly on the end date
and is still generated. -/
theorem claim_C3_counterexample :
    (∀ cur : ℤ, 30 ≤ (fetch30 cur (cur + 30)).nRows ∧
      (calculate_correlations kernF kernF kernP kernP
        (fetch30 cur (cur + 30)) .both 30).isOk = true) ∧
    (analyze_temporal_stability kernF kernF kernP kernP fetch30 0 90 30 30
      ["a", "b"]).windows.length ≠ 2 := by
  constructor
  · intro cur
    refine ⟨Nat.le_refl 30, ?_⟩
    show (calculate_correlations kernF kernF kernP kernP df30
      .both 30).isOk = true
    rw [calc_corr_df30]
    rfl
  · rw [analyze_fetch30_result]
    decide

/-- C3 (amended): over a range whose end is exactly 90 days after the
start, with window_days = 30 and step_days = 30, when every candidate
window's fetch has at least 30 rows and a succeeding correlation
computation, exactly 3 windows are generated: the loop keeps a window
whenever `current_start + window_days <= end_date`, so the windows start
on days 0, 30 and 60 and the last one ends exactly on the end date. -/
theorem claim_C3_amended (f g : List (ℚ × ℚ) → ℚ)
    (p q : List ℚ → List ℚ → ℚ) (fetch : ℤ → ℤ → Df) (startDate : ℤ)
    (parameters : List String)
    (hfetch : ∀ cur : ℤ, startDate ≤ cur → cur + 30 ≤ startDate + 90 →
      30 ≤ (fetch cur (cur + 30)).nRows ∧
      (calculate_correlations f g p q (fetch cur (cur + 30))
        .both 30).isOk = true) :
    (analyze_temporal_stability f g p q fetch startDate (startDate + 90)
      30 30 parameters).windows.length = 3 := by
  obtain ⟨h30a, hoka⟩ := hfetch startDate (le_refl startDate) (by omega)
  obtain ⟨h30b, hokb⟩ := hfetch (startDate + 30) (by omega) (by omega)
  obtain ⟨h30c, hokc⟩ :=
    hfetch (startDate + 30 + 30) (by omega) (by omega)
  unfold analyze_temporal_stability
  rw [show (startDate + 90 - startDate).toNat + 1 = 91 from by
      rw [show startDate + 90 - startDate = (90 : ℤ) from by ring]
      rfl,
    show (91 : ℕ) = 90 + 1 from rfl,
    tsLoop_succ, if_pos (by omega : startDate + 30 ≤ startDate + 90),
    show (90 : ℕ) = 89 + 1 from rfl,
    tsLoop_succ,
    if_pos (by omega : startDate + 30 + 30 ≤ startDate + 90),
    show (89 : ℕ) = 88 + 1 from rfl,
    tsLoop_succ,
    if_pos (by omega : startDate + 30 + 30 + 30 ≤ startDate + 90),
    show (88 : ℕ) = 87 + 1 from rfl,
    tsLoop_succ,
    if_neg (by omega : ¬(startDate + 30 + 30 + 30 + 30 ≤ startDate + 90))]
  rw [processWindow_windows f g p q fetch 30 (startDate + 30 + 30) _
      h30c hokc,
    processWindow_windows f g p q fetch 30 (startDate + 30) _ h30b hokb,
    processWindow_windows f g p q fetch 30 startDate _ h30a hoka]
  simp

/-- Witness for C3 (amended): the constant 30-row fetch satisfies the
assumptions over the 90-day range and yields exactly 3 windows. -/
theorem claim_C3_witness :
    (analyze_temporal_stability kernF kernF kernP kernP fetch30 0 (0 + 90)
      30 30 ["a", "b"]).windows.length = 3 := by
  apply claim_C3_amended
  intro cur h1 h2
  refine ⟨Nat.le_refl 30, ?_⟩
  show (calculate_correlations kernF kernF kernP kernP df30
    .both 30).isOk = true
  rw [calc_corr_df30]
  rfl

/-- Witness for C10 at the constant 30-row fetch: the first recorded
window has at least 30 observations, and the tracked pair's series have
equal length, not exceeding the recorded window count. -/
theorem claim_C10_witness :
    30 ≤ (⟨0, 0 + 30, 30⟩ : WindowInfo).observations ∧
    ((⟨"a", "b", [none, none, none],
        [none, none, none]⟩ : PairSeries).pearson.length =
      (⟨"a", "b", [none, none, none],
        [none, none, none]⟩ : PairSeries).spearman.length ∧
      (⟨"a", "b", [none, none, none],
        [none, none, none]⟩ : PairSeries).pearson.length ≤
        (analyze_temporal_stability kernF kernF kernP kernP fetch30 0 90
          30 30 ["a", "b"]).windows.length) := by
  have h := claim_C10 kernF kernF kernP kernP fetch30 0 90 30 30
    ["a", "b"]
  exact ⟨h.1 ⟨0, 0 + 30, 30⟩ (by rw [analyze_fetch30_result]; decide),
    h.2 ⟨"a", "b", [none, none, none], [none, none, none]⟩
      (by rw [analyze_fetch30_result]; simp)⟩

end TEA
